import Mathlib

/-!
Verification of the SERD voxel engine (src/C/SERD.c).

The C code is shallowly embedded as follows.

* The voxel grid `int *grid` of shape `(nx, ny, nz)` is a `Grid`: a map
  from integer coordinates `(i, j, k)` to the stored tag, realised as a
  base assignment plus the list of stores performed so far.
  Every read and write in the C source is guarded by a bounds check, so
  the linear layout `k + nz * (j + ny * i)` is observationally equivalent
  to coordinate indexing; out-of-bounds coordinates are never written.
* C `double` arithmetic is modelled by exact rational arithmetic `ℚ`.
  The comparison `sqrt d2 < H` of the source is modelled by `sqrtLt d2 H`
  (`0 < H ∧ d2 < H²`) and `sqrt d2 <= H` by `sqrtLe d2 H`
  (`0 ≤ H ∧ d2 ≤ H²`), which are the exact real-number equivalences.
* OpenMP parallel sweeps are modelled by the sequential lexicographic
  sweep of the corresponding loop nest (the C loops in program order).
* The unbounded C recursion of `flood_and_fill` and the `while (big)`
  loop are modelled with an explicit fuel parameter; theorems quantify
  over the fuel, so they hold for every recursion depth.
* The global variables `points` and `big` are threaded as explicit state.
-/

namespace SERD

/-- A voxel coordinate `(i, j, k)`. -/
abbrev Coord := ℤ × ℤ × ℤ

/-- The voxel grid: a base assignment of tags to coordinates plus the
list of stores performed so far (most recent first). Reading a cell
takes the most recent store to it, defaulting to the base. This is an
extensional model of the C `int *grid` buffer; a structure of concrete
data is used (rather than a bare function) so that runs of the pipeline
on concrete grids evaluate in time linear in the number of stores. -/
structure Grid where
  over : List (Coord × ℤ)
  base : Coord → ℤ

/-- Most recent store to `c` in the store list, if any. -/
def ovLookup (c : Coord) : List (Coord × ℤ) → Option ℤ
  | [] => none
  | p :: t => if c = p.1 then some p.2 else ovLookup c t

/-- Read one grid cell (an array load in the C code). -/
def Grid.rd (g : Grid) (c : Coord) : ℤ :=
  (ovLookup c g.over).getD (g.base c)

/-- Write one grid cell (an array store in the C code). -/
def upd (g : Grid) (c : Coord) (v : ℤ) : Grid :=
  ⟨(c, v) :: g.over, g.base⟩

/-- The all-`b` grid with no stores. -/
def constGrid (b : ℤ) : Grid :=
  ⟨[], fun _ => b⟩

/-- The integers `0, 1, ..., n-1` (a C loop `for (i = 0; i < n; i++)`). -/
def rangeZ (n : ℤ) : List ℤ :=
  (List.range n.toNat).map (fun (m : ℕ) => (m : ℤ))

/-- The integers `a, a+1, ..., b` (a C loop `for (i = a; i <= b; i++)`). -/
def rangeZI (a b : ℤ) : List ℤ :=
  (List.range (b + 1 - a).toNat).map (fun (m : ℕ) => a + (m : ℤ))

/-- All in-bounds voxels in lexicographic `(i, j, k)` order: the triple
loop nest `for i, for j, for k` used throughout the C code. -/
def voxelList (nx ny nz : ℤ) : List Coord :=
  (rangeZ nx).flatMap (fun i =>
    (rangeZ ny).flatMap (fun j =>
      (rangeZ nz).map (fun k => (i, j, k))))

/-- The 27-cell neighbourhood cube of `(i, j, k)` (center included), in
the `x, y, z` loop order of the C neighbour loops. -/
def neighborCells (c : Coord) : List Coord :=
  (rangeZI (c.1 - 1) (c.1 + 1)).flatMap (fun x =>
    (rangeZI (c.2.1 - 1) (c.2.1 + 1)).flatMap (fun y =>
      (rangeZI (c.2.2 - 1) (c.2.2 + 1)).map (fun z => (x, y, z))))

/-- In-grid test `!(x < 0 || y < 0 || z < 0 || x > nx-1 || y > ny-1 || z > nz-1)`. -/
def inBoundsB (nx ny nz : ℤ) (c : Coord) : Bool :=
  0 ≤ c.1 && c.1 < nx && 0 ≤ c.2.1 && c.2.1 < ny && 0 ≤ c.2.2 && c.2.2 < nz

/-- The strictly positive bounds test `i > 0 && i < nx && ...` used by
`ses` (line 183) and `_interface` (line 710): index `0` is excluded. -/
def strictBoundsB (nx ny nz : ℤ) (c : Coord) : Bool :=
  0 < c.1 && c.1 < nx && 0 < c.2.1 && c.2.1 < ny && 0 < c.2.2 && c.2.2 < nz

/-- Outer-face test of `flood_and_fill` (line 425):
`i == 0 || i == nx-1 || j == 0 || j == ny-1 || k == 0 || k == nz-1`. -/
def isBoundaryB (nx ny nz : ℤ) (c : Coord) : Bool :=
  c.1 = 0 || c.1 = nx - 1 || c.2.1 = 0 || c.2.1 = ny - 1 ||
  c.2.2 = 0 || c.2.2 = nz - 1

/-- Exact model of the C comparison `sqrt d2 < H` on reals:
for `d2 ≥ 0` it holds iff `H` is positive and `d2 < H²`. -/
def sqrtLt (d2 H : ℚ) : Bool :=
  0 < H && d2 < H * H

/-- Exact model of the C comparison `sqrt d2 <= H` on reals:
for `d2 ≥ 0` it holds iff `H` is nonnegative and `d2 ≤ H²`. -/
def sqrtLe (d2 H : ℚ) : Bool :=
  0 ≤ H && d2 ≤ H * H

/-- Squared Euclidean distance between an integer voxel and a fractional
grid-space point (the argument of `sqrt(pow(i-x,2)+pow(j-y,2)+pow(k-z,2))`). -/
def dist2 (c : Coord) (t : ℚ × ℚ × ℚ) : ℚ :=
  ((c.1 : ℚ) - t.1) ^ 2 + ((c.2.1 : ℚ) - t.2.1) ^ 2 + ((c.2.2 : ℚ) - t.2.2) ^ 2

/-- Squared Euclidean distance between two voxels (the argument of
`sqrt(pow(i-i2,2)+pow(j-j2,2)+pow(k-k2,2))` in `ses`). -/
def dist2I (c d : Coord) : ℚ :=
  ((c.1 - d.1 : ℤ) : ℚ) ^ 2 + ((c.2.1 - d.2.1 : ℤ) : ℚ) ^ 2 +
    ((c.2.2 - d.2.2 : ℤ) : ℚ) ^ 2

/-- The coordinate transform shared by `fill` and `_interface`
(lines 73-83 and 690-700): translate by the grid origin, divide by the
step, and rotate by the two angles of `sincos`. -/
def transform (ax ay az rx ry rz sa ca sb cb step : ℚ) : ℚ × ℚ × ℚ :=
  let x := (ax - rx) / step
  let y := (ay - ry) / step
  let z := (az - rz) / step
  let xa := x * cb + z * sb
  let ya := y
  let za := (-x) * sb + z * cb
  (xa, ya * ca - za * sa, ya * sa + za * ca)

/-- Function `igrid`: every cell of the grid buffer is set to `1`
(the buffer holds exactly the `size = nx*ny*nz` cells of the grid, so in
the coordinate model every coordinate reads `1` afterwards). -/
def igrid : Grid := constGrid 1

/-- The scan cube of one atom in `fill` and `_interface`:
`for i = floor(x-H) .. ceil(x+H)` and similarly for `j`, `k`. -/
def atomCube (t : ℚ × ℚ × ℚ) (H : ℚ) : List Coord :=
  (rangeZI ⌊t.1 - H⌋ ⌈t.1 + H⌉).flatMap (fun i =>
    (rangeZI ⌊t.2.1 - H⌋ ⌈t.2.1 + H⌉).flatMap (fun j =>
      (rangeZI ⌊t.2.2 - H⌋ ⌈t.2.2 + H⌉).map (fun k => (i, j, k))))

/-- Function `fill`: for each atom, carve to `0` every in-grid voxel at
Euclidean distance `< H = (probe + radius)/step` from the transformed
center (distance test first, then the bounds test, as in lines 94-97). -/
def fill (nx ny nz : ℤ) (atoms : ℤ → ℚ) (natoms : ℤ)
    (rx ry rz sa ca sb cb step probe : ℚ) (g : Grid) : Grid :=
  (rangeZ natoms).foldl (fun g a =>
    let t := transform (atoms (4 * a)) (atoms (4 * a + 1)) (atoms (4 * a + 2))
      rx ry rz sa ca sb cb step
    let H := (probe + atoms (4 * a + 3)) / step
    (atomCube t H).foldl (fun g c =>
      if sqrtLt (dist2 c t) H && inBoundsB nx ny nz c then upd g c 0 else g) g) g

/-- Function `check_protein_neighbours`: true iff some in-grid cell of
the 27-cube around `c` holds `0` or `-2`. -/
def check_protein_neighbours (nx ny nz : ℤ) (g : Grid) (c : Coord) : Bool :=
  (neighborCells c).any (fun d =>
    inBoundsB nx ny nz d && (g.rd d = 0 || g.rd d = -2))

/-- The cube of Chebyshev radius `aux` around `c`, in the loop order of
the marking loop of `ses` (lines 179-181). -/
def chebCube (c : Coord) (aux : ℤ) : List Coord :=
  (rangeZI (c.1 - aux) (c.1 + aux)).flatMap (fun i2 =>
    (rangeZI (c.2.1 - aux) (c.2.1 + aux)).flatMap (fun j2 =>
      (rangeZI (c.2.2 - aux) (c.2.2 + aux)).map (fun k2 => (i2, j2, k2))))

/-- One cell of the marking loop of `ses` (lines 183-191): set `w` to
`-2` when it has strictly positive indices, lies at distance
`< probe/step` from the cavity point `c`, and holds tag `0`. -/
def sesMarkStep (nx ny nz : ℤ) (step probe : ℚ) (c : Coord) (g : Grid)
    (w : Coord) : Grid :=
  if strictBoundsB nx ny nz w = true then
    if sqrtLt (dist2I c w) (probe / step) = true then
      if g.rd w = 0 then upd g w (-2) else g
    else g
  else g

/-- The inner marking loop of `ses` (lines 179-193): over the cube of
Chebyshev radius `aux = ceil(probe/step)` around `c`, set to `-2` every
cell with strictly positive indices, distance `< probe/step`, and tag `0`. -/
def sesMark (nx ny nz : ℤ) (step probe : ℚ) (g : Grid) (c : Coord) : Grid :=
  (chebCube c ⌈probe / step⌉).foldl (sesMarkStep nx ny nz step probe c) g

/-- One voxel step of Pass A of `ses`: a cavity point (tag `1`) next to a
protein point (`0` or `-2`) triggers the marking loop. -/
def sesStep (nx ny nz : ℤ) (step probe : ℚ) (g : Grid) (c : Coord) : Grid :=
  if g.rd c = 1 ∧ check_protein_neighbours nx ny nz g c = true then
    sesMark nx ny nz step probe g c
  else g

/-- Pass A of `ses` (mark sweep over the whole grid, in loop order). -/
def sesPassA (nx ny nz : ℤ) (step probe : ℚ) (g : Grid) : Grid :=
  (voxelList nx ny nz).foldl (sesStep nx ny nz step probe) g

/-- Pass B of `ses` (lines 197-206): every `-2` cell becomes `1`. -/
def sesPassB (nx ny nz : ℤ) (g : Grid) : Grid :=
  (voxelList nx ny nz).foldl (fun g c =>
    if g.rd c = -2 then upd g c 1 else g) g

/-- Function `ses`: the SES adjustment, Pass A then Pass B. -/
def ses (nx ny nz : ℤ) (step probe : ℚ) (g : Grid) : Grid :=
  sesPassB nx ny nz (sesPassA nx ny nz step probe g)

/-- Function `define_surface_points`: `1` if some in-grid cell of the
27-cube holds `0`, else `-1`. -/
def define_surface_points (nx ny nz : ℤ) (g : Grid) (c : Coord) : ℤ :=
  if (neighborCells c).any (fun d => inBoundsB nx ny nz d && g.rd d = 0) then 1
  else -1

/-- Function `filter_surface`: every cell with tag `1` is rewritten to
`define_surface_points` of its neighbourhood (in-place, in loop order). -/
def filter_surface (nx ny nz : ℤ) (g : Grid) : Grid :=
  (voxelList nx ny nz).foldl (fun g c =>
    if g.rd c = 1 then upd g c (define_surface_points nx ny nz g c) else g) g

/-- Function `remove_noise_points`: `1` if some in-grid cell of the
27-cube holds `-1`, else `0`. -/
def remove_noise_points (nx ny nz : ℤ) (g : Grid) (c : Coord) : ℤ :=
  if (neighborCells c).any (fun d => inBoundsB nx ny nz d && g.rd d = -1) then 1
  else 0

/-- Function `filter_noise_points`: every cell with tag `1` is rewritten
to `remove_noise_points` of its neighbourhood. -/
def filter_noise_points (nx ny nz : ℤ) (g : Grid) : Grid :=
  (voxelList nx ny nz).foldl (fun g c =>
    if g.rd c = 1 then upd g c (remove_noise_points nx ny nz g c) else g) g

/-- First cell of a list that is in-grid and holds a tag `> 1`; returns
its tag, or `0` if none (the scan of `check_unclustered_neighbours`). -/
def firstTagged (nx ny nz : ℤ) (g : Grid) : List Coord → ℤ
  | [] => 0
  | d :: t =>
    if inBoundsB nx ny nz d = true ∧ 1 < g.rd d then g.rd d
    else firstTagged nx ny nz g t

/-- Function `check_unclustered_neighbours`: scan the 27-cube in loop
order and return the first tag `> 1` found in-grid (`0` if none). -/
def check_unclustered_neighbours (nx ny nz : ℤ) (g : Grid) (c : Coord) : ℤ :=
  firstTagged nx ny nz g (neighborCells c)

/-- The state threaded through `flood_and_fill`: the grid plus the C
globals `points` and `big`. -/
structure FState where
  g : Grid
  points : ℤ
  big : Bool

/-- Function `flood_and_fill`: recursive 26-connectivity marker. Returns
immediately on an outer face; otherwise, on an unclustered cell (tag `1`)
with `big` unset, writes the tag, counts the point, raises `big` when
`points` reaches `10000`, and else recurses into the 27-cube. The `fuel`
argument bounds the recursion depth (the C recursion is unbounded);
theorems quantify over it. -/
def flood_and_fill (nx ny nz tag : ℤ) : Nat → Coord → FState → FState
  | 0, _, s => s
  | fuel + 1, c, s =>
    if isBoundaryB nx ny nz c = true then s
    else if s.g.rd c = 1 ∧ s.big = false then
      let p := s.points + 1
      let b : Bool := p = 10000
      let s1 : FState := ⟨upd s.g c tag, p, b⟩
      if b then s1
      else (neighborCells c).foldl
        (fun t d => flood_and_fill nx ny nz tag fuel d t) s1
    else s

/-- The state of the completion loop of `filter_enclosed_regions`:
grid, `points`, `big`, and the local accumulator `aux`. -/
structure RState where
  g : Grid
  points : ℤ
  big : Bool
  aux : ℤ

/-- One voxel iteration of the rescan of the completion loop
(lines 490-499): reset `big`, accumulate `points` into `aux`, reset
`points`, then resume the marker on an unclustered cell whose first
tagged neighbour carries the current tag. -/
def rescanStep (nx ny nz tag : ℤ) (ffuel : Nat) (s : RState) (c : Coord) :
    RState :=
  let aux := s.aux + s.points
  if s.g.rd c = 1 ∧ check_unclustered_neighbours nx ny nz s.g c = tag then
    let f := flood_and_fill nx ny nz tag ffuel c ⟨s.g, 0, false⟩
    ⟨f.g, f.points, f.big, aux⟩
  else ⟨s.g, 0, false, aux⟩

/-- One full rescan of the grid in the completion loop: `aux = 0`, then
the triple loop of `rescanStep` over every voxel. -/
def rescanOnce (nx ny nz tag : ℤ) (ffuel : Nat) (s : RState) : RState :=
  (voxelList nx ny nz).foldl (rescanStep nx ny nz tag ffuel)
    ⟨s.g, s.points, s.big, 0⟩

/-- The `while (big)` completion loop (lines 486-500), with fuel. -/
def whileBig (nx ny nz tag : ℤ) (ffuel : Nat) : Nat → RState → RState
  | 0, s => s
  | wfuel + 1, s =>
    if s.big = true then whileBig nx ny nz tag ffuel wfuel
      (rescanOnce nx ny nz tag ffuel s)
    else s

/-- The state of the clustering scan of `filter_enclosed_regions`. -/
structure CState where
  g : Grid
  tag : ℤ
  points : ℤ
  big : Bool

/-- One voxel iteration of the clustering scan (lines 476-502): on a cell
with tag `1`, increment `tag`, reset `points`, flood from the cell, then
run the completion loop; finally `points = aux`. -/
def ferScanStep (nx ny nz : ℤ) (ffuel wfuel : Nat) (s : CState) (c : Coord) :
    CState :=
  if s.g.rd c = 1 then
    let tag := s.tag + 1
    let f := flood_and_fill nx ny nz tag ffuel c ⟨s.g, 0, s.big⟩
    let r := whileBig nx ny nz tag ffuel wfuel ⟨f.g, f.points, f.big, f.points⟩
    ⟨r.g, tag, r.aux, r.big⟩
  else s

/-- The whole clustering phase of `filter_enclosed_regions`: the
lexicographic scan starting from `tag = 1`, `big = 0`. -/
def ferCluster (nx ny nz : ℤ) (ffuel wfuel : Nat) (g : Grid) : CState :=
  (voxelList nx ny nz).foldl (ferScanStep nx ny nz ffuel wfuel) ⟨g, 1, 0, false⟩

/-- The tag-rewrite map of the final sweep (lines 516-519):
`2` becomes `1`, tags above `2` become `0`, all else is unchanged. -/
def rewriteTag (v : ℤ) : ℤ :=
  if v = 2 then 1 else if 2 < v then 0 else v

/-- The cell map of Pass B of `ses`: `-2` becomes `1`, all else kept. -/
def promoteNeg2 (x : ℤ) : ℤ :=
  if x = -2 then 1 else x

/-- The final tag-rewrite sweep of `filter_enclosed_regions`. -/
def rewriteSweep (nx ny nz : ℤ) (g : Grid) : Grid :=
  (voxelList nx ny nz).foldl (fun g c =>
    if g.rd c = 2 then upd g c 1 else if 2 < g.rd c then upd g c 0 else g) g

/-- Function `filter_enclosed_regions`: clustering scan, then (when at
least one tag was assigned, `tag > 1`) the tag-rewrite sweep. -/
def filter_enclosed_regions (nx ny nz : ℤ) (ffuel wfuel : Nat) (g : Grid) :
    Grid :=
  let s := ferCluster nx ny nz ffuel wfuel g
  if 1 < s.tag then rewriteSweep nx ny nz s.g else s.g

/-- Function `_surface`: the full pipeline
`igrid; fill; (ses when is_ses); filter_surface; filter_enclosed_regions;
filter_noise_points`. The `nthreads` argument only sets the OpenMP pool
width in C and does not affect the computed grid; `verbose` only prints. -/
def _surface (nx ny nz : ℤ) (atoms : ℤ → ℚ) (natoms : ℤ)
    (rx ry rz sa ca sb cb step probe : ℚ) (is_ses : Bool)
    (nthreads : ℤ) (ffuel wfuel : Nat) : Grid :=
  let g0 := igrid
  let g1 := fill nx ny nz atoms natoms rx ry rz sa ca sb cb step probe g0
  let g2 := if is_ses then ses nx ny nz step probe g1 else g1
  let g3 := filter_surface nx ny nz g2
  let g4 := filter_enclosed_regions nx ny nz ffuel wfuel g3
  let _ := nthreads
  filter_noise_points nx ny nz g4

/-- Function `insert`: sorted linked-list insertion, tail walk
(lines 634-641): advance while the next node is `< p`, then splice. -/
def insertTail (p : ℤ) : List ℤ → List ℤ
  | [] => [p]
  | r :: t => if r < p then r :: insertTail p t else p :: r :: t

/-- Function `insert` (lines 623-642): prepend when the list is empty or
its head is `≥ p`, else walk the tail. -/
def insertRes (l : List ℤ) (p : ℤ) : List ℤ :=
  match l with
  | [] => [p]
  | q :: t => if p ≤ q then p :: q :: t else q :: insertTail p t

/-- The accumulator state of the `_interface` atom loop: the linked list
of atom indices, the `count` of inserted nodes, and `old_atom`. -/
structure IState where
  reslist : List ℤ
  count : ℤ
  old : ℤ

/-- One voxel iteration of the `_interface` scan for atom `a`
(lines 706-725): on an in-grid voxel with strictly positive indices,
tag `1`, and distance `≤ H`, insert the atom once (`old_atom` guard). -/
def interfaceStep (nx ny nz : ℤ) (g : Grid) (t : ℚ × ℚ × ℚ) (H : ℚ)
    (a : ℤ) (s : IState) (c : Coord) : IState :=
  if strictBoundsB nx ny nz c = true ∧ g.rd c = 1 ∧ sqrtLe (dist2 c t) H = true
  then
    if s.old ≠ a then ⟨insertRes s.reslist a, s.count + 1, a⟩
    else ⟨s.reslist, s.count, a⟩
  else s

/-- The voxel qualification test of `_interface` for atom data `(t, H)`
at voxel `c`: in-grid with strictly positive indices, tag `1`, and
distance `≤ H` from the transformed center. -/
def interfaceHit (nx ny nz : ℤ) (g : Grid) (t : ℚ × ℚ × ℚ) (H : ℚ)
    (c : Coord) : Bool :=
  strictBoundsB nx ny nz c && g.rd c = 1 && sqrtLe (dist2 c t) H

/-- The transformed center of atom `a` in `_interface` and `fill`. -/
def atomT (atoms : ℤ → ℚ) (rx ry rz sa ca sb cb step : ℚ) (a : ℤ) :
    ℚ × ℚ × ℚ :=
  transform (atoms (4 * a)) (atoms (4 * a + 1)) (atoms (4 * a + 2))
    rx ry rz sa ca sb cb step

/-- The combined radius `H = (probe + radius)/step` of atom `a`. -/
def atomH (atoms : ℤ → ℚ) (step probe : ℚ) (a : ℤ) : ℚ :=
  (probe + atoms (4 * a + 3)) / step

/-- The body of the `_interface` atom loop for one atom `a`: transform
the center, compute `H`, and scan the atom cube. -/
def interfaceAtom (nx ny nz : ℤ) (g : Grid) (atoms : ℤ → ℚ)
    (rx ry rz sa ca sb cb step probe : ℚ) (s : IState) (a : ℤ) : IState :=
  let t := atomT atoms rx ry rz sa ca sb cb step a
  let H := atomH atoms step probe a
  (atomCube t H).foldl (interfaceStep nx ny nz g t H a) s

/-- The atom loop of `_interface` (lines 687-726): for each atom in
order, scan its cube and accumulate the residue list. -/
def interfaceFold (nx ny nz : ℤ) (g : Grid) (atoms : ℤ → ℚ) (natoms : ℤ)
    (rx ry rz sa ca sb cb step probe : ℚ) : IState :=
  (rangeZ natoms).foldl
    (interfaceAtom nx ny nz g atoms rx ry rz sa ca sb cb step probe)
    ⟨[], 0, -1⟩

/-- The sequence of atom indices underlying the residue array returned by
`_interface` (the linked list `reslist` in traversal order). -/
def interfaceResList (nx ny nz : ℤ) (g : Grid) (atoms : ℤ → ℚ) (natoms : ℤ)
    (rx ry rz sa ca sb cb step probe : ℚ) : List ℤ :=
  (interfaceFold nx ny nz g atoms natoms rx ry rz sa ca sb cb step probe).reslist

/-- Function `_interface` (lines 728-740): the returned `char **` array,
one slot per inserted node holding `pdb[pos]`, and a final `NULL` slot. -/
def _interface (nx ny nz : ℤ) (g : Grid) (pdb : ℤ → String) (atoms : ℤ → ℚ)
    (natoms : ℤ) (rx ry rz sa ca sb cb step probe : ℚ) :
    List (Option String) :=
  ((interfaceResList nx ny nz g atoms natoms rx ry rz sa ca sb cb step
      probe).map (fun p => some (pdb p))) ++ [none]


/-! ### Predicates used to state the claims, and concrete test inputs -/

/-- The code's criterion for atom data `(t, H)` to touch the surface:
some voxel of the scan cube passes `interfaceHit` (strictly positive
indices, tag `1`, distance `≤ H`). -/
def touchesCubeB (nx ny nz : ℤ) (g : Grid) (t : ℚ × ℚ × ℚ) (H : ℚ) : Bool :=
  (atomCube t H).any (interfaceHit nx ny nz g t H)

/-- Full-grid version of the touch criterion with the code's strictly
positive bounds: some voxel of the whole grid passes `interfaceHit`. -/
def touchesGridB (nx ny nz : ℤ) (g : Grid) (t : ℚ × ℚ × ℚ) (H : ℚ) : Bool :=
  (voxelList nx ny nz).any (interfaceHit nx ny nz g t H)

/-- The code's touch criterion for atom `a` of the atom array: some
voxel of its scan cube passes `interfaceHit`. -/
def atomTouches (nx ny nz : ℤ) (g : Grid) (atoms : ℤ → ℚ)
    (rx ry rz sa ca sb cb step probe : ℚ) (a : ℤ) : Bool :=
  touchesCubeB nx ny nz g (atomT atoms rx ry rz sa ca sb cb step a)
    (atomH atoms step probe a)

/-- The touch criterion claimed by the specification: some voxel within
the grid bounds `[0, nx) x [0, ny) x [0, nz)` (indices equal to `0`
included) has tag `1` and lies at distance `≤ H` from the center. -/
def touchesSpecZeroB (nx ny nz : ℤ) (g : Grid) (t : ℚ × ℚ × ℚ) (H : ℚ) :
    Bool :=
  (voxelList nx ny nz).any (fun c =>
    inBoundsB nx ny nz c && g.rd c = 1 && sqrtLe (dist2 c t) H)

/-- Modelled from the spec: the input validation required by the error
design (degenerate `nx`, `ny`, `nz`, `step`, `nthreads` non-positive or
`natoms` negative surface a fatal error). No such check exists anywhere
in `src/C/SERD.c`; this definition follows the specification's words and
is compared against the code's `_surface`. -/
def surfaceChecked (nx ny nz : ℤ) (atoms : ℤ → ℚ) (natoms : ℤ)
    (rx ry rz sa ca sb cb step probe : ℚ) (is_ses : Bool)
    (nthreads : ℤ) (ffuel wfuel : Nat) : Except String Grid :=
  if nx ≤ 0 ∨ ny ≤ 0 ∨ nz ≤ 0 ∨ step ≤ 0 ∨ nthreads ≤ 0 ∨ natoms < 0 then
    Except.error "degenerate input"
  else
    Except.ok (_surface nx ny nz atoms natoms rx ry rz sa ca sb cb step probe
      is_ses nthreads ffuel wfuel)

/-- Test grid: a single candidate-surface voxel at the center of a
3x3x3 grid, everything else bulk. -/
def gCenter3 : Grid :=
  ⟨[], fun c => if c = (1, 1, 1) then 1 else 0⟩

/-- Test state grid for the completion loop: in a 5x5x5 grid, an old
cluster voxel `(1,1,1)` with tag `2`, a current-cluster voxel `(3,3,3)`
with tag `3`, one unclustered voxel `(2,2,2)` with tag `1`, rest bulk. -/
def gOldTag : Grid :=
  ⟨[], fun c =>
    if c = (1, 1, 1) then 2 else if c = (3, 3, 3) then 3 else
    if c = (2, 2, 2) then 1 else 0⟩

/-- Test grid: a single kept-surface voxel at the corner `(0,0,0)` of a
2x2x2 grid, rest bulk. -/
def gCorner0 : Grid :=
  ⟨[], fun c => if c = (0, 0, 0) then 1 else 0⟩

/-- Test grid: a single kept-surface voxel at `(1,1,1)` in a 3x3x3
grid, rest bulk. -/
def gMid3 : Grid :=
  ⟨[], fun c => if c = (1, 1, 1) then 1 else 0⟩

/-- Test grid: one bulk voxel at `(0,1,1)` of a 3x3x3 grid, rest
cavity. -/
def gHole011 : Grid :=
  ⟨[], fun c => if c = (0, 1, 1) then 0 else 1⟩

/-- Test grid: one bulk voxel at `(1,1,2)` of a 3x3x3 grid, rest
cavity. -/
def gHole112 : Grid :=
  ⟨[], fun c => if c = (1, 1, 2) then 0 else 1⟩

/-- Test grid: in a 3x3x4 grid, the two layers `k <= 1` are cavity and
the two layers `k >= 2` are bulk. -/
def gSlab : Grid :=
  ⟨[], fun c => if c.2.2 ≤ 1 then 1 else 0⟩

/-- Test atom array: every stored double is `1` (one atom centered at
`(1,1,1)` with radius `1` when read at indices `0..3`). -/
def atomsUnit : ℤ → ℚ := fun _ => 1

/-- Test atom array: an atom centered at the origin with radius `1`
(indices `0..2` read `0`, index `3` reads `1`). -/
def atomsOrigin : ℤ → ℚ := fun i => if i = 3 then 1 else 0

/-! ### Basic lemmas about grids and index lists -/

theorem rd_upd (g : Grid) (c : Coord) (v : ℤ) (d : Coord) :
    (upd g c v).rd d = if d = c then v else g.rd d := by
  by_cases h : d = c <;> simp [upd, Grid.rd, ovLookup, h]

theorem mem_rangeZ {n a : ℤ} : a ∈ rangeZ n ↔ 0 ≤ a ∧ a < n := by
  unfold rangeZ
  simp only [List.mem_map, List.mem_range]
  constructor
  · rintro ⟨m, hm, rfl⟩
    omega
  · rintro ⟨h0, h1⟩
    exact ⟨a.toNat, by omega, by omega⟩

theorem mem_rangeZI {a b x : ℤ} : x ∈ rangeZI a b ↔ a ≤ x ∧ x ≤ b := by
  unfold rangeZI
  simp only [List.mem_map, List.mem_range]
  constructor
  · rintro ⟨m, hm, rfl⟩
    omega
  · rintro ⟨h0, h1⟩
    exact ⟨(x - a).toNat, by omega, by omega⟩

theorem mem_voxelList {nx ny nz : ℤ} {c : Coord} :
    c ∈ voxelList nx ny nz ↔
      0 ≤ c.1 ∧ c.1 < nx ∧ 0 ≤ c.2.1 ∧ c.2.1 < ny ∧ 0 ≤ c.2.2 ∧ c.2.2 < nz := by
  obtain ⟨i, j, k⟩ := c
  unfold voxelList
  simp only [List.mem_flatMap, List.mem_map, mem_rangeZ, Prod.mk.injEq]
  constructor
  · rintro ⟨a, ha, b, hb, d, hd, rfl, rfl, rfl⟩
    exact ⟨ha.1, ha.2, hb.1, hb.2, hd.1, hd.2⟩
  · rintro ⟨h1, h2, h3, h4, h5, h6⟩
    exact ⟨i, ⟨h1, h2⟩, j, ⟨h3, h4⟩, k, ⟨h5, h6⟩, rfl, rfl, rfl⟩

theorem inBoundsB_iff {nx ny nz : ℤ} {c : Coord} :
    inBoundsB nx ny nz c = true ↔
      0 ≤ c.1 ∧ c.1 < nx ∧ 0 ≤ c.2.1 ∧ c.2.1 < ny ∧ 0 ≤ c.2.2 ∧ c.2.2 < nz := by
  simp [inBoundsB, and_assoc]

theorem mem_voxelList_iff_inBounds {nx ny nz : ℤ} {c : Coord} :
    c ∈ voxelList nx ny nz ↔ inBoundsB nx ny nz c = true := by
  rw [mem_voxelList, inBoundsB_iff]

theorem mem_neighborCells {c d : Coord} :
    d ∈ neighborCells c ↔
      c.1 - 1 ≤ d.1 ∧ d.1 ≤ c.1 + 1 ∧ c.2.1 - 1 ≤ d.2.1 ∧ d.2.1 ≤ c.2.1 + 1 ∧
        c.2.2 - 1 ≤ d.2.2 ∧ d.2.2 ≤ c.2.2 + 1 := by
  obtain ⟨i, j, k⟩ := d
  unfold neighborCells
  simp only [List.mem_flatMap, List.mem_map, mem_rangeZI, Prod.mk.injEq]
  constructor
  · rintro ⟨a, ha, b, hb, e, he, rfl, rfl, rfl⟩
    exact ⟨ha.1, ha.2, hb.1, hb.2, he.1, he.2⟩
  · rintro ⟨h1, h2, h3, h4, h5, h6⟩
    exact ⟨i, ⟨h1, h2⟩, j, ⟨h3, h4⟩, k, ⟨h5, h6⟩, rfl, rfl, rfl⟩

theorem rangeZ_concat {n : ℤ} (h : 1 ≤ n) : rangeZ n = rangeZ (n - 1) ++ [n - 1] := by
  unfold rangeZ
  have h1 : n.toNat = (n - 1).toNat + 1 := by omega
  rw [h1, List.range_succ, List.map_append]
  simp only [List.map_cons, List.map_nil, List.append_cancel_left_eq,
    List.cons.injEq, and_true]
  omega

/-- Generic pointwise characterisation of an in-place sweep whose step
rewrites only the visited cell, through an idempotent cell map `f`. -/
theorem foldl_pointwise {step : Grid → Coord → Grid} {f : ℤ → ℤ}
    (hstep : ∀ g v c, (step g v).rd c = if c = v then f (g.rd v) else g.rd c)
    (hf : ∀ x, f (f x) = f x) :
    ∀ (L : List Coord) (g : Grid) (c : Coord),
      (L.foldl step g).rd c = if c ∈ L then f (g.rd c) else g.rd c := by
  intro L
  induction L with
  | nil => simp
  | cons v L ih =>
    intro g c
    simp only [List.foldl_cons, List.mem_cons]
    rw [ih]
    by_cases hc : c = v
    · subst hc
      by_cases hmem : c ∈ L <;> simp [hmem, hstep, hf]
    · by_cases hmem : c ∈ L <;> simp [hmem, hstep, hc]


theorem rewriteTag_idem (x : ℤ) : rewriteTag (rewriteTag x) = rewriteTag x := by
  unfold rewriteTag
  by_cases h2 : x = 2
  · simp [h2]
  · by_cases h3 : 2 < x <;> simp [h2, h3]

/-- The final tag-rewrite sweep acts pointwise through `rewriteTag`. -/
theorem rewriteSweep_rd (nx ny nz : ℤ) (g : Grid) (c : Coord) :
    (rewriteSweep nx ny nz g).rd c =
      if c ∈ voxelList nx ny nz then rewriteTag (g.rd c) else g.rd c := by
  unfold rewriteSweep
  refine foldl_pointwise ?_ rewriteTag_idem (voxelList nx ny nz) g c
  intro g v d
  unfold rewriteTag
  by_cases h2 : g.rd v = 2
  · simp [h2, rd_upd]
  · by_cases h3 : 2 < g.rd v
    · simp [h2, h3, rd_upd]
    · by_cases hd : d = v <;> simp [h2, h3, hd]

theorem promoteNeg2_idem (x : ℤ) : promoteNeg2 (promoteNeg2 x) = promoteNeg2 x := by
  unfold promoteNeg2
  by_cases h2 : x = -2 <;> simp [h2]

/-- Pass B of `ses` acts pointwise: `-2` becomes `1`, all else is kept. -/
theorem sesPassB_rd (nx ny nz : ℤ) (g : Grid) (c : Coord) :
    (sesPassB nx ny nz g).rd c =
      if c ∈ voxelList nx ny nz then promoteNeg2 (g.rd c) else g.rd c := by
  unfold sesPassB
  refine foldl_pointwise ?_ promoteNeg2_idem (voxelList nx ny nz) g c
  intro g v d
  unfold promoteNeg2
  by_cases h2 : g.rd v = -2
  · simp [h2, rd_upd]
  · by_cases hd : d = v <;> simp [h2, hd]

/-! ### Lemmas about `flood_and_fill` -/

/-- `flood_and_fill` started on an outer-face voxel returns at once. -/
theorem flood_boundary {nx ny nz tag : ℤ} {c : Coord}
    (hb : isBoundaryB nx ny nz c = true) (fuel : Nat) (s : FState) :
    flood_and_fill nx ny nz tag fuel c s = s := by
  cases fuel <;> simp [flood_and_fill, hb]

/-- `flood_and_fill` never writes to an outer-face voxel. -/
theorem flood_rd_boundary {nx ny nz tag : ℤ} {c : Coord}
    (hb : isBoundaryB nx ny nz c = true) :
    ∀ (fuel : Nat) (d : Coord) (s : FState),
      (flood_and_fill nx ny nz tag fuel d s).g.rd c = s.g.rd c := by
  intro fuel
  induction fuel with
  | zero => intro d s; rfl
  | succ f ih =>
    intro d s
    rw [flood_and_fill]
    by_cases hd : isBoundaryB nx ny nz d = true
    · simp [hd]
    · have hdc : c ≠ d := by
        intro h
        rw [h] at hb
        exact hd hb
      simp only [hd, if_false]
      by_cases h1 : s.g.rd d = 1 ∧ s.big = false
      · simp only [h1, if_true]
        set p := s.points + 1 with hp
        by_cases hbig : (decide (p = 10000) : Bool) = true
        · simp only [hbig, if_true]
          simp [rd_upd, hdc]
        · simp only [Bool.not_eq_true] at hbig
          simp only [hbig, Bool.false_eq_true, if_false]
          have hfold : ∀ (L : List Coord) (t : FState),
              t.g.rd c = s.g.rd c →
              (L.foldl (fun u e => flood_and_fill nx ny nz tag f e u) t).g.rd c
                = s.g.rd c := by
            intro L
            induction L with
            | nil => intro t ht; exact ht
            | cons e L ihL =>
              intro t ht
              simp only [List.foldl_cons]
              exact ihL _ (by rw [ih e t]; exact ht)
          exact hfold _ _ (by simp [rd_upd, hdc])
      · simp [h1]


/-! ### Structure of the completion loop of `filter_enclosed_regions` -/

theorem voxelList_concat {nx ny nz : ℤ} (hx : 1 ≤ nx) (hy : 1 ≤ ny)
    (hz : 1 ≤ nz) :
    ∃ L, voxelList nx ny nz = L ++ [(nx - 1, ny - 1, nz - 1)] := by
  have e1 : voxelList nx ny nz =
      (rangeZ (nx - 1)).flatMap (fun i =>
        (rangeZ ny).flatMap (fun j => (rangeZ nz).map (fun k => (i, j, k)))) ++
        (rangeZ ny).flatMap (fun j =>
          (rangeZ nz).map (fun k => (nx - 1, j, k))) := by
    unfold voxelList
    rw [rangeZ_concat hx, List.flatMap_append]
    simp
  have e2 : (rangeZ ny).flatMap (fun j =>
        (rangeZ nz).map (fun k => (nx - 1, j, k))) =
      (rangeZ (ny - 1)).flatMap (fun j =>
        (rangeZ nz).map (fun k => (nx - 1, j, k))) ++
        (rangeZ nz).map (fun k => (nx - 1, ny - 1, k)) := by
    rw [rangeZ_concat hy, List.flatMap_append]
    simp
  have e3 : (rangeZ nz).map (fun k => ((nx - 1 : ℤ), (ny - 1 : ℤ), k)) =
      (rangeZ (nz - 1)).map (fun k => (nx - 1, ny - 1, k)) ++
        [(nx - 1, ny - 1, nz - 1)] := by
    rw [rangeZ_concat hz, List.map_append]
    simp
  refine ⟨(rangeZ (nx - 1)).flatMap (fun i =>
      (rangeZ ny).flatMap (fun j => (rangeZ nz).map (fun k => (i, j, k)))) ++
      ((rangeZ (ny - 1)).flatMap (fun j =>
        (rangeZ nz).map (fun k => (nx - 1, j, k))) ++
        (rangeZ (nz - 1)).map (fun k => (nx - 1, ny - 1, k))), ?_⟩
  rw [e1, e2, e3]
  simp [List.append_assoc]

theorem corner_isBoundary {nx ny nz : ℤ} :
    isBoundaryB nx ny nz (nx - 1, ny - 1, nz - 1) = true := by
  simp [isBoundaryB]

/-- A rescan iteration at an outer-face voxel always clears `big`
(the resumed marker returns before touching it). -/
theorem rescanStep_big_boundary {nx ny nz tag : ℤ} {ffuel : Nat}
    {c : Coord} (hb : isBoundaryB nx ny nz c = true) (s : RState) :
    (rescanStep nx ny nz tag ffuel s c).big = false := by
  unfold rescanStep
  by_cases h : s.g.rd c = 1 ∧ check_unclustered_neighbours nx ny nz s.g c = tag
  · simp only [h, if_true]
    rw [flood_boundary hb]
    simp
  · simp [h]

/-- An outer-face voxel is never written during a rescan iteration. -/
theorem rescanStep_rd_boundary {nx ny nz tag : ℤ} {ffuel : Nat}
    {c : Coord} (hb : isBoundaryB nx ny nz c = true) (s : RState) (d : Coord) :
    (rescanStep nx ny nz tag ffuel s d).g.rd c = s.g.rd c := by
  unfold rescanStep
  by_cases h : s.g.rd d = 1 ∧ check_unclustered_neighbours nx ny nz s.g d = tag
  · simp only [h, if_true]
    exact flood_rd_boundary hb ffuel d _
  · simp [h]

/-- After one full rescan of a nonempty grid, `big` is `0`: the final
iteration of the triple loop resets `big` and then resumes the marker
only at the grid corner, an outer-face voxel on which it returns at
once. The `while (big)` completion loop therefore exits after a single
full rescan. -/
theorem rescanOnce_big {nx ny nz tag : ℤ} {ffuel : Nat} (s : RState)
    (hx : 1 ≤ nx) (hy : 1 ≤ ny) (hz : 1 ≤ nz) :
    (rescanOnce nx ny nz tag ffuel s).big = false := by
  unfold rescanOnce
  obtain ⟨L, hL⟩ := voxelList_concat hx hy hz
  rw [hL, List.foldl_append]
  simp only [List.foldl_cons, List.foldl_nil]
  exact rescanStep_big_boundary corner_isBoundary _

theorem whileBig_of_not_big {nx ny nz tag : ℤ} {ffuel wfuel : Nat}
    {s : RState} (h : s.big = false) :
    whileBig nx ny nz tag ffuel wfuel s = s := by
  cases wfuel <;> simp [whileBig, h]

/-- The `while (big)` loop runs at most one full rescan: if `big` is
set it performs exactly one rescan (which clears `big`) and stops,
otherwise it does nothing. -/
theorem whileBig_eq_single {nx ny nz tag : ℤ} {ffuel wfuel : Nat}
    (s : RState) (hx : 1 ≤ nx) (hy : 1 ≤ ny) (hz : 1 ≤ nz) :
    whileBig nx ny nz tag ffuel (wfuel + 1) s =
      if s.big = true then rescanOnce nx ny nz tag ffuel s else s := by
  by_cases h : s.big = true
  · simp only [whileBig, h, if_true]
    exact whileBig_of_not_big (rescanOnce_big s hx hy hz)
  · simp only [whileBig, h, if_false]
    rfl

/-! ### The clustering scan: tag evolution -/

theorem ferScanStep_tag {nx ny nz : ℤ} {ffuel wfuel : Nat}
    (s : CState) (c : Coord) :
    (ferScanStep nx ny nz ffuel wfuel s c).tag =
      if s.g.rd c = 1 then s.tag + 1 else s.tag := by
  unfold ferScanStep
  by_cases h : s.g.rd c = 1 <;> simp [h]

theorem ferfold_tag_mono {nx ny nz : ℤ} {ffuel wfuel : Nat} :
    ∀ (L : List Coord) (s : CState),
      s.tag ≤ ((L.foldl (ferScanStep nx ny nz ffuel wfuel) s)).tag := by
  intro L
  induction L with
  | nil => intro s; exact le_refl _
  | cons c L ih =>
    intro s
    simp only [List.foldl_cons]
    refine le_trans ?_ (ih _)
    rw [ferScanStep_tag]
    split <;> omega

/-- If the clustering scan ends with the tag it started from, it never
fired: the state is returned unchanged. -/
theorem ferfold_tag_eq {nx ny nz : ℤ} {ffuel wfuel : Nat} :
    ∀ (L : List Coord) (s : CState),
      ((L.foldl (ferScanStep nx ny nz ffuel wfuel) s)).tag = s.tag →
      L.foldl (ferScanStep nx ny nz ffuel wfuel) s = s := by
  intro L
  induction L with
  | nil => intro s _; rfl
  | cons c L ih =>
    intro s h
    simp only [List.foldl_cons] at h ⊢
    by_cases h1 : s.g.rd c = 1
    · exfalso
      have h2 := @ferfold_tag_mono nx ny nz ffuel wfuel L
        (ferScanStep nx ny nz ffuel wfuel s c)
      rw [ferScanStep_tag] at h2
      simp only [h1, if_true] at h2
      omega
    · have hstep : ferScanStep nx ny nz ffuel wfuel s c = s := by
        unfold ferScanStep
        simp [h1]
      rw [hstep] at h ⊢
      exact ih s h


/-! ### Outer-face voxels are never written by the clustering phase -/

theorem rescanOnce_rd_boundary {nx ny nz tag : ℤ} {ffuel : Nat} {c : Coord}
    (hb : isBoundaryB nx ny nz c = true) (s : RState) :
    (rescanOnce nx ny nz tag ffuel s).g.rd c = s.g.rd c := by
  unfold rescanOnce
  have hfold : ∀ (L : List Coord) (t : RState), t.g.rd c = s.g.rd c →
      ((L.foldl (rescanStep nx ny nz tag ffuel) t)).g.rd c = s.g.rd c := by
    intro L
    induction L with
    | nil => intro t ht; exact ht
    | cons e L ihL =>
      intro t ht
      simp only [List.foldl_cons]
      refine ihL _ ?_
      rw [rescanStep_rd_boundary hb]
      exact ht
  exact hfold _ _ rfl

theorem whileBig_rd_boundary {nx ny nz tag : ℤ} {ffuel : Nat} {c : Coord}
    (hb : isBoundaryB nx ny nz c = true) :
    ∀ (wfuel : Nat) (s : RState),
      (whileBig nx ny nz tag ffuel wfuel s).g.rd c = s.g.rd c := by
  intro wfuel
  induction wfuel with
  | zero => intro s; rfl
  | succ w ih =>
    intro s
    unfold whileBig
    by_cases h : s.big = true
    · simp only [h, if_true]
      rw [ih, rescanOnce_rd_boundary hb]
    · simp [h]

theorem ferScanStep_rd_boundary {nx ny nz : ℤ} {ffuel wfuel : Nat} {c : Coord}
    (hb : isBoundaryB nx ny nz c = true) (s : CState) (d : Coord) :
    (ferScanStep nx ny nz ffuel wfuel s d).g.rd c = s.g.rd c := by
  unfold ferScanStep
  by_cases h : s.g.rd d = 1
  · simp only [h, if_true]
    rw [whileBig_rd_boundary hb]
    exact flood_rd_boundary hb ffuel d _
  · simp [h]

theorem ferCluster_rd_boundary {nx ny nz : ℤ} {ffuel wfuel : Nat} {c : Coord}
    (hb : isBoundaryB nx ny nz c = true) (g : Grid) :
    (ferCluster nx ny nz ffuel wfuel g).g.rd c = g.rd c := by
  unfold ferCluster
  have hfold : ∀ (L : List Coord) (t : CState), t.g.rd c = g.rd c →
      ((L.foldl (ferScanStep nx ny nz ffuel wfuel) t)).g.rd c = g.rd c := by
    intro L
    induction L with
    | nil => intro t ht; exact ht
    | cons e L ihL =>
      intro t ht
      simp only [List.foldl_cons]
      refine ihL _ ?_
      rw [ferScanStep_rd_boundary hb]
      exact ht
  exact hfold _ _ rfl

/-- The clustering scan starts from `tag = 1` and only ever increments
the tag, so the final tag is at least `1`. -/
theorem ferCluster_tag_ge {nx ny nz : ℤ} {ffuel wfuel : Nat} (g : Grid) :
    1 ≤ (ferCluster nx ny nz ffuel wfuel g).tag :=
  ferfold_tag_mono (voxelList nx ny nz) ⟨g, 1, 0, false⟩

/-- If no voxel with tag `1` is ever met, the whole clustering scan is
the identity. -/
theorem ferCluster_of_tag_one {nx ny nz : ℤ} {ffuel wfuel : Nat} (g : Grid)
    (h : (ferCluster nx ny nz ffuel wfuel g).tag = 1) :
    ferCluster nx ny nz ffuel wfuel g = ⟨g, 1, 0, false⟩ :=
  ferfold_tag_eq (voxelList nx ny nz) ⟨g, 1, 0, false⟩ h

/-- C1: after `filter_enclosed_regions` returns, every voxel that
carried cluster tag `2` at the end of the clustering phase carries `1`
(kept), every voxel that carried a tag greater than `2` carries `0`
(discarded), no voxel carries a tag `≥ 2`, and voxels tagged `0` or
`-1` at entry to the rewrite sweep are unchanged by it. The hypothesis
is the §3 invariant at entry to C6 (all tags in `{-1, 0, 1}`). -/
theorem C1_tag_rewrite (nx ny nz : ℤ) (ffuel wfuel : Nat) (g : Grid)
    (hvals : ∀ v ∈ voxelList nx ny nz,
      g.rd v = -1 ∨ g.rd v = 0 ∨ g.rd v = 1)
    (c : Coord) (hc : c ∈ voxelList nx ny nz) :
    ((ferCluster nx ny nz ffuel wfuel g).g.rd c = 2 →
      (filter_enclosed_regions nx ny nz ffuel wfuel g).rd c = 1) ∧
    (2 < (ferCluster nx ny nz ffuel wfuel g).g.rd c →
      (filter_enclosed_regions nx ny nz ffuel wfuel g).rd c = 0) ∧
    (filter_enclosed_regions nx ny nz ffuel wfuel g).rd c < 2 ∧
    ((ferCluster nx ny nz ffuel wfuel g).g.rd c = 0 ∨
      (ferCluster nx ny nz ffuel wfuel g).g.rd c = -1 →
      (filter_enclosed_regions nx ny nz ffuel wfuel g).rd c =
        (ferCluster nx ny nz ffuel wfuel g).g.rd c) := by
  unfold filter_enclosed_regions
  by_cases ht : 1 < (ferCluster nx ny nz ffuel wfuel g).tag
  · simp only [ht, if_true]
    rw [rewriteSweep_rd]
    simp only [hc, if_true]
    unfold rewriteTag
    refine ⟨?_, ?_, ?_, ?_⟩
    · intro h2
      simp [h2]
    · intro h3
      have h2 : (ferCluster nx ny nz ffuel wfuel g).g.rd c ≠ 2 := by omega
      simp [h2, h3]
    · by_cases h2 : (ferCluster nx ny nz ffuel wfuel g).g.rd c = 2
      · simp [h2]
      · by_cases h3 : 2 < (ferCluster nx ny nz ffuel wfuel g).g.rd c
        · simp [h2, h3]
        · simp only [h2, h3, if_false]
          omega
    · intro h0
      have h2 : (ferCluster nx ny nz ffuel wfuel g).g.rd c ≠ 2 := by omega
      have h3 : ¬ 2 < (ferCluster nx ny nz ffuel wfuel g).g.rd c := by omega
      simp [h2, h3]
  · have h1 : (ferCluster nx ny nz ffuel wfuel g).tag = 1 := by
      have := @ferCluster_tag_ge nx ny nz ffuel wfuel g
      omega
    have heq := @ferCluster_of_tag_one nx ny nz ffuel wfuel g h1
    have hg : (ferCluster nx ny nz ffuel wfuel g).g = g := by rw [heq]
    simp only [ht, if_false, hg]
    have hval := hvals c hc
    refine ⟨?_, ?_, ?_, ?_⟩
    · intro h2
      omega
    · intro h3
      omega
    · omega
    · intro h0
      trivial

theorem C1_tag_rewrite_witness :
    (∀ v ∈ voxelList 3 3 3,
      gCenter3.rd v = -1 ∨ gCenter3.rd v = 0 ∨ gCenter3.rd v = 1) ∧
    ((ferCluster 3 3 3 30 30 gCenter3).g.rd (1, 1, 1) = 2 →
      (filter_enclosed_regions 3 3 3 30 30 gCenter3).rd (1, 1, 1) = 1) ∧
    (2 < (ferCluster 3 3 3 30 30 gCenter3).g.rd (1, 1, 1) →
      (filter_enclosed_regions 3 3 3 30 30 gCenter3).rd (1, 1, 1) = 0) ∧
    (filter_enclosed_regions 3 3 3 30 30 gCenter3).rd (1, 1, 1) < 2 ∧
    ((ferCluster 3 3 3 30 30 gCenter3).g.rd (1, 1, 1) = 0 ∨
      (ferCluster 3 3 3 30 30 gCenter3).g.rd (1, 1, 1) = -1 →
      (filter_enclosed_regions 3 3 3 30 30 gCenter3).rd (1, 1, 1) =
        (ferCluster 3 3 3 30 30 gCenter3).g.rd (1, 1, 1)) :=
  ⟨by decide, C1_tag_rewrite 3 3 3 30 30 gCenter3 (by decide) (1, 1, 1)
    (by decide)⟩


/-- C2 counterexample: in a 1x1x1 grid whose only voxel `(0,0,0)` is an
outer-face voxel and holds tag `1`, the clustering scan of
`filter_enclosed_regions` nevertheless increments `tag` from `1` to `2`
(the boundary test sits inside `flood_and_fill`, not in the scan), while
the claim states the counter is incremented only on voxels not lying on
an outer boundary face, which would leave the tag at `1` here. The
voxel itself keeps tag `1`. -/
theorem C2_counterexample :
    (ferCluster 1 1 1 1 1 (constGrid 1)).tag = 2 ∧
    (voxelList 1 1 1).all (isBoundaryB 1 1 1) = true ∧
    (constGrid 1).rd (0, 0, 0) = 1 ∧
    (ferCluster 1 1 1 1 1 (constGrid 1)).g.rd (0, 0, 0) = 1 := by
  decide

/-- C2 amended: during the lexicographic scan of the flood-fill pruner,
the cluster counter `tag` is incremented upon finding any voxel with tag
`1`, whether or not it lies on an outer boundary face (the marker is
invoked on it in either case); for voxels on an outer face the invoked
marker returns at once, so such voxels keep tag `1` to the very end of
`filter_enclosed_regions`. -/
theorem C2_amended_scan (nx ny nz : ℤ) (ffuel wfuel : Nat) :
    (∀ (s : CState) (c : Coord),
      (ferScanStep nx ny nz ffuel wfuel s c).tag =
        if s.g.rd c = 1 then s.tag + 1 else s.tag) ∧
    (∀ (g : Grid) (c : Coord), isBoundaryB nx ny nz c = true → g.rd c = 1 →
      (filter_enclosed_regions nx ny nz ffuel wfuel g).rd c = 1) := by
  constructor
  · intro s c
    exact ferScanStep_tag s c
  · intro g c hb hg
    have h1 : (ferCluster nx ny nz ffuel wfuel g).g.rd c = g.rd c :=
      ferCluster_rd_boundary hb g
    unfold filter_enclosed_regions
    by_cases ht : 1 < (ferCluster nx ny nz ffuel wfuel g).tag
    · simp only [ht, if_true]
      rw [rewriteSweep_rd, h1, hg]
      by_cases hc : c ∈ voxelList nx ny nz <;> simp [hc, rewriteTag]
    · simp only [ht, if_false]
      rw [h1, hg]

theorem C2_amended_scan_witness :
    ((ferScanStep 1 1 1 1 1 ⟨constGrid 1, 1, 0, false⟩ (0, 0, 0)).tag =
      if (constGrid 1).rd (0, 0, 0) = 1 then 1 + 1 else 1) ∧
    isBoundaryB 1 1 1 (0, 0, 0) = true ∧
    (constGrid 1).rd (0, 0, 0) = 1 ∧
    (filter_enclosed_regions 1 1 1 1 1 (constGrid 1)).rd (0, 0, 0) = 1 :=
  ⟨(C2_amended_scan 1 1 1 1 1).1 ⟨constGrid 1, 1, 0, false⟩ (0, 0, 0),
    by decide, by decide,
    (C2_amended_scan 1 1 1 1 1).2 (constGrid 1) (0, 0, 0) (by decide)
      (by decide)⟩

set_option maxRecDepth 1000000 in
/-- C3 counterexample: a completion-loop state with `big` set in a
5x5x5 grid where the current cluster has tag `3`: voxel `(2,2,2)` is an
off-boundary voxel with tag `1` whose 26-neighbourhood contains the
current-cluster voxel `(3,3,3)` (tag `3`), yet the completion loop
terminates (after its single rescan, `big` is `0`) leaving `(2,2,2)`
unclustered, because `check_unclustered_neighbours` returns the first
tagged neighbour in scan order, here the old cluster tag `2` at
`(1,1,1)`, which differs from the current tag. The claim states the
loop terminates only when no such voxel remains, and that no such voxel
remains once processing ends; both fail on this state. -/
theorem C3_counterexample :
    (whileBig 5 5 5 3 9 2 ⟨gOldTag, 0, true, 0⟩).big = false ∧
    (whileBig 5 5 5 3 9 2 ⟨gOldTag, 0, true, 0⟩).g.rd (2, 2, 2) = 1 ∧
    isBoundaryB 5 5 5 (2, 2, 2) = false ∧
    (whileBig 5 5 5 3 9 2 ⟨gOldTag, 0, true, 0⟩).g.rd (3, 3, 3) = 3 ∧
    (3, 3, 3) ∈ neighborCells (2, 2, 2) ∧
    check_unclustered_neighbours 5 5 5 gOldTag (2, 2, 2) = 2 := by
  decide

/-- C3 amended: when the recursive marker exhausts its budget (`big`
set), the completion loop of `filter_enclosed_regions` performs exactly
one full rescan of the grid and then exits: the rescan body clears
`big` at every voxel and its final voxel is the grid corner, an
outer-face voxel on which the resumed marker returns at once, so `big`
is always `0` when a full rescan completes. During that rescan the
marker is resumed from a voxel with tag `1` only when the first tagged
(`> 1`) in-grid neighbour in scan order carries the current cluster
tag; unclustered voxels adjacent to the cluster may therefore remain
when the loop exits. -/
theorem C3_amended_single_rescan (nx ny nz tag : ℤ) (ffuel wfuel : Nat)
    (s : RState) (hx : 1 ≤ nx) (hy : 1 ≤ ny) (hz : 1 ≤ nz) :
    whileBig nx ny nz tag ffuel (wfuel + 1) s =
      if s.big = true then rescanOnce nx ny nz tag ffuel s else s :=
  whileBig_eq_single s hx hy hz

theorem C3_amended_single_rescan_witness :
    whileBig 1 1 1 2 1 1 (RState.mk (constGrid 1) 0 true 0) =
      if (RState.mk (constGrid 1) 0 true 0).big = true then
        rescanOnce 1 1 1 2 1 (RState.mk (constGrid 1) 0 true 0)
      else RState.mk (constGrid 1) 0 true 0 :=
  C3_amended_single_rescan 1 1 1 2 1 0 (RState.mk (constGrid 1) 0 true 0)
    (by decide) (by decide) (by decide)


/-! ### Pass A of `ses`: monotone marking lemmas -/

theorem mem_chebCube {c w : Coord} {aux : ℤ} :
    w ∈ chebCube c aux ↔
      c.1 - aux ≤ w.1 ∧ w.1 ≤ c.1 + aux ∧ c.2.1 - aux ≤ w.2.1 ∧
        w.2.1 ≤ c.2.1 + aux ∧ c.2.2 - aux ≤ w.2.2 ∧ w.2.2 ≤ c.2.2 + aux := by
  obtain ⟨i, j, k⟩ := w
  unfold chebCube
  simp only [List.mem_flatMap, List.mem_map, mem_rangeZI, Prod.mk.injEq]
  constructor
  · rintro ⟨a, ha, b, hb, e, he, rfl, rfl, rfl⟩
    exact ⟨ha.1, ha.2, hb.1, hb.2, he.1, he.2⟩
  · rintro ⟨h1, h2, h3, h4, h5, h6⟩
    exact ⟨i, ⟨h1, h2⟩, j, ⟨h3, h4⟩, k, ⟨h5, h6⟩, rfl, rfl, rfl⟩

/-- A sweep whose every step either leaves a cell alone or turns a `0`
into `-2` has the same property as a whole. -/
theorem foldl_rd_cases {step : Grid → Coord → Grid}
    (h : ∀ g u w, (step g u).rd w = g.rd w ∨
      (g.rd w = 0 ∧ (step g u).rd w = -2)) :
    ∀ (L : List Coord) (g : Grid) (w : Coord),
      (L.foldl step g).rd w = g.rd w ∨
        (g.rd w = 0 ∧ (L.foldl step g).rd w = -2) := by
  intro L
  induction L with
  | nil => intro g w; exact Or.inl rfl
  | cons u L ih =>
    intro g w
    simp only [List.foldl_cons]
    rcases h g u w with h1 | ⟨h0, h2⟩
    · rcases ih (step g u) w with h3 | ⟨h4, h5⟩
      · exact Or.inl (h3.trans h1)
      · exact Or.inr ⟨h1.symm.trans h4, h5⟩
    · rcases ih (step g u) w with h3 | ⟨h4, h5⟩
      · exact Or.inr ⟨h0, h3.trans h2⟩
      · exact absurd (h2.symm.trans h4) (by norm_num)

theorem sesMarkStep_cases (nx ny nz : ℤ) (step probe : ℚ) (c : Coord)
    (g : Grid) (u w : Coord) :
    (sesMarkStep nx ny nz step probe c g u).rd w = g.rd w ∨
      (g.rd w = 0 ∧ (sesMarkStep nx ny nz step probe c g u).rd w = -2) := by
  unfold sesMarkStep
  by_cases h1 : strictBoundsB nx ny nz u = true
  · by_cases h2 : sqrtLt (dist2I c u) (probe / step) = true
    · by_cases h3 : g.rd u = 0
      · simp only [h1, h2, h3, if_true]
        by_cases hw : w = u
        · subst hw
          exact Or.inr ⟨h3, by simp [rd_upd]⟩
        · exact Or.inl (by simp [rd_upd, hw])
      · simp [h1, h2, h3]
    · simp [h1, h2]
  · simp [h1]

theorem sesMark_cases (nx ny nz : ℤ) (step probe : ℚ) (g : Grid)
    (c w : Coord) :
    (sesMark nx ny nz step probe g c).rd w = g.rd w ∨
      (g.rd w = 0 ∧ (sesMark nx ny nz step probe g c).rd w = -2) := by
  unfold sesMark
  exact foldl_rd_cases (sesMarkStep_cases nx ny nz step probe c) _ g w

theorem sesStep_cases (nx ny nz : ℤ) (step probe : ℚ) (g : Grid)
    (u w : Coord) :
    (sesStep nx ny nz step probe g u).rd w = g.rd w ∨
      (g.rd w = 0 ∧ (sesStep nx ny nz step probe g u).rd w = -2) := by
  unfold sesStep
  by_cases h : g.rd u = 1 ∧ check_protein_neighbours nx ny nz g u = true
  · simp only [h, if_true]
    exact sesMark_cases nx ny nz step probe g u w
  · simp [h]

theorem sesPassA_cases (nx ny nz : ℤ) (step probe : ℚ) (g : Grid)
    (w : Coord) :
    (sesPassA nx ny nz step probe g).rd w = g.rd w ∨
      (g.rd w = 0 ∧ (sesPassA nx ny nz step probe g).rd w = -2) := by
  unfold sesPassA
  exact foldl_rd_cases (sesStep_cases nx ny nz step probe) _ g w

/-- A cavity-next-to-protein test stays true when cells only change
from `0` to `-2` (both values satisfy the test). -/
theorem check_protein_mono {nx ny nz : ℤ} {g gp : Grid} {v : Coord}
    (h : ∀ d, gp.rd d = g.rd d ∨ (g.rd d = 0 ∧ gp.rd d = -2))
    (hc : check_protein_neighbours nx ny nz g v = true) :
    check_protein_neighbours nx ny nz gp v = true := by
  unfold check_protein_neighbours at hc ⊢
  rw [List.any_eq_true] at hc ⊢
  obtain ⟨d, hd, hp⟩ := hc
  refine ⟨d, hd, ?_⟩
  simp only [Bool.and_eq_true, Bool.or_eq_true, decide_eq_true_eq] at hp ⊢
  rcases h d with he | ⟨h0, h2⟩
  · rw [he]
    exact hp
  · exact ⟨hp.1, Or.inr h2⟩

theorem sesMark_marks {nx ny nz : ℤ} {step probe : ℚ} {c w : Coord}
    (hsb : strictBoundsB nx ny nz w = true)
    (hdist : sqrtLt (dist2I c w) (probe / step) = true) :
    ∀ (L : List Coord) (g : Grid), w ∈ L →
      (g.rd w = 0 ∨ g.rd w = -2) →
      ((L.foldl (sesMarkStep nx ny nz step probe c) g)).rd w = -2 := by
  intro L
  induction L with
  | nil =>
    intro g hmem
    exact absurd hmem (List.not_mem_nil w)
  | cons u L ih =>
    intro g hmem h0
    simp only [List.foldl_cons]
    by_cases hu : u = w
    · subst hu
      have hstep : (sesMarkStep nx ny nz step probe c g u).rd u = -2 := by
        unfold sesMarkStep
        rcases h0 with h | h
        · simp [hsb, hdist, h, rd_upd]
        · have hne : ¬ g.rd u = 0 := by rw [h]; norm_num
          simp [hsb, hdist, hne, h]
      rcases foldl_rd_cases (sesMarkStep_cases nx ny nz step probe c) L
          (sesMarkStep nx ny nz step probe c g u) u with h1 | ⟨h1, h2⟩
      · rw [h1, hstep]
      · rw [hstep] at h1
        exact absurd h1 (by norm_num)
    · have hmem2 : w ∈ L := by
        rcases List.mem_cons.mp hmem with h | h
        · exact absurd h.symm hu
        · exact h
      have h0p : (sesMarkStep nx ny nz step probe c g u).rd w = 0 ∨
          (sesMarkStep nx ny nz step probe c g u).rd w = -2 := by
        rcases sesMarkStep_cases nx ny nz step probe c g u w with h1 | ⟨h1, h2⟩
        · rw [h1]
          exact h0
        · exact Or.inr h2
      exact ih _ hmem2 h0p

theorem sesPassA_marks_aux {nx ny nz : ℤ} {step probe : ℚ} {v w : Coord}
    (hw : w ∈ chebCube v ⌈probe / step⌉)
    (hsb : strictBoundsB nx ny nz w = true)
    (hdist : sqrtLt (dist2I v w) (probe / step) = true) :
    ∀ (L : List Coord) (g : Grid), v ∈ L → g.rd v = 1 →
      check_protein_neighbours nx ny nz g v = true →
      (g.rd w = 0 ∨ g.rd w = -2) →
      ((L.foldl (sesStep nx ny nz step probe) g)).rd w = -2 := by
  intro L
  induction L with
  | nil =>
    intro g hmem
    exact absurd hmem (List.not_mem_nil v)
  | cons u L ih =>
    intro g hmem h1 hc h0
    simp only [List.foldl_cons]
    by_cases hu : u = v
    · subst hu
      have hfire : sesStep nx ny nz step probe g u =
          sesMark nx ny nz step probe g u := by
        unfold sesStep
        simp [h1, hc]
      have hmarked : (sesStep nx ny nz step probe g u).rd w = -2 := by
        rw [hfire]
        unfold sesMark
        exact sesMark_marks hsb hdist _ g hw h0
      rcases foldl_rd_cases (sesStep_cases nx ny nz step probe) L
          (sesStep nx ny nz step probe g u) w with h2 | ⟨h2, h3⟩
      · rw [h2, hmarked]
      · rw [hmarked] at h2
        exact absurd h2 (by norm_num)
    · have hmem2 : v ∈ L := by
        rcases List.mem_cons.mp hmem with h | h
        · exact absurd h.symm hu
        · exact h
      have hcase := fun d => sesStep_cases nx ny nz step probe g u d
      have h1p : (sesStep nx ny nz step probe g u).rd v = 1 := by
        rcases hcase v with h2 | ⟨h2, h3⟩
        · rw [h2, h1]
        · rw [h1] at h2
          exact absurd h2 (by norm_num)
      have hcp := check_protein_mono hcase hc
      have h0p : (sesStep nx ny nz step probe g u).rd w = 0 ∨
          (sesStep nx ny nz step probe g u).rd w = -2 := by
        rcases hcase w with h2 | ⟨h2, h3⟩
        · rw [h2]
          exact h0
        · exact Or.inr h3
      exact ih _ hmem2 h1p hcp h0p


set_option maxRecDepth 1000000 in
/-- C6 counterexample: in a 3x3x3 grid with `probe/step = 6/5`, voxel
`v = (1,1,1)` has tag `1` and a 26-neighbour with tag `0`, and voxel
`w = (0,1,1)` lies within the grid bounds `[0,3)` (with an index equal
to `0`), within the Chebyshev cube of radius `ceil(probe/step) = 2`
around `v`, has tag `0`, and is at distance `1 < 6/5` from `v` — yet
Pass A leaves `w` at `0`: the marking loop requires strictly positive
indices (`i2 > 0 && j2 > 0 && k2 > 0`, line 183), so the claim's
"including index 0" fails. -/
theorem C6_counterexample :
    gHole011.rd (1, 1, 1) = 1 ∧
    check_protein_neighbours 3 3 3 gHole011 (1, 1, 1) = true ∧
    inBoundsB 3 3 3 (0, 1, 1) = true ∧
    (0, 1, 1) ∈ chebCube (1, 1, 1) ⌈(6 / 5 : ℚ) / 1⌉ ∧
    gHole011.rd (0, 1, 1) = 0 ∧
    sqrtLt (dist2I (1, 1, 1) (0, 1, 1)) ((6 / 5 : ℚ) / 1) = true ∧
    (sesPassA 3 3 3 1 (6 / 5) gHole011).rd (0, 1, 1) = 0 := by
  with_unfolding_all decide

/-- C6 amended: in Pass A of the SES adjustment, for every in-grid
voxel `v` with tag `1` that has a 26-neighbour within the grid tagged
`0` or `-2`, every voxel `w` with strictly positive indices
(`(0, nx) x (0, ny) x (0, nz)`, index `0` excluded) in the Chebyshev
cube of radius `ceil(probe/step)` around `v`, having tag `0` and
Euclidean distance from `v` strictly less than `probe/step`, is set to
`-2` by the end of the pass. -/
theorem C6_amended_passA_marks (nx ny nz : ℤ) (step probe : ℚ)
    (g : Grid) (v w : Coord)
    (hv : v ∈ voxelList nx ny nz)
    (h1 : g.rd v = 1)
    (hcheck : check_protein_neighbours nx ny nz g v = true)
    (hw : w ∈ chebCube v ⌈probe / step⌉)
    (hsb : strictBoundsB nx ny nz w = true)
    (h0 : g.rd w = 0)
    (hdist : sqrtLt (dist2I v w) (probe / step) = true) :
    (sesPassA nx ny nz step probe g).rd w = -2 := by
  unfold sesPassA
  exact sesPassA_marks_aux hw hsb hdist (voxelList nx ny nz) g hv h1 hcheck
    (Or.inl h0)

theorem C6_amended_passA_marks_witness :
    (sesPassA 3 3 3 1 (6 / 5) gHole112).rd (1, 1, 2) = -2 :=
  C6_amended_passA_marks 3 3 3 1 (6 / 5) gHole112 (1, 1, 1) (1, 1, 2)
    (by decide) (by decide) (by decide) (by with_unfolding_all decide)
    (by decide) (by decide) (by with_unfolding_all decide)

/-! ### `ses` with no marking, and the `-2` clearing of Pass B -/

theorem sesMarkStep_id {nx ny nz : ℤ} {step probe : ℚ} {c : Coord}
    (hH : ¬ 0 < probe / step) (g : Grid) (u : Coord) :
    sesMarkStep nx ny nz step probe c g u = g := by
  have hf : sqrtLt (dist2I c u) (probe / step) = false := by
    simp [sqrtLt, hH]
  unfold sesMarkStep
  simp [hf]

theorem sesMark_id {nx ny nz : ℤ} {step probe : ℚ}
    (hH : ¬ 0 < probe / step) (g : Grid) (c : Coord) :
    sesMark nx ny nz step probe g c = g := by
  unfold sesMark
  have hfold : ∀ (L : List Coord) (g : Grid),
      L.foldl (sesMarkStep nx ny nz step probe c) g = g := by
    intro L
    induction L with
    | nil => intro g; rfl
    | cons u L ih =>
      intro g
      simp only [List.foldl_cons, sesMarkStep_id hH]
      exact ih g
  exact hfold _ g

theorem sesPassA_id {nx ny nz : ℤ} {step probe : ℚ}
    (hH : ¬ 0 < probe / step) (g : Grid) :
    sesPassA nx ny nz step probe g = g := by
  unfold sesPassA
  have hstep : ∀ (g : Grid) (u : Coord), sesStep nx ny nz step probe g u = g := by
    intro g u
    unfold sesStep
    by_cases h : g.rd u = 1 ∧ check_protein_neighbours nx ny nz g u = true
    · simp only [h, if_true]
      exact sesMark_id hH g u
    · simp [h]
  have hfold : ∀ (L : List Coord) (g : Grid),
      L.foldl (sesStep nx ny nz step probe) g = g := by
    intro L
    induction L with
    | nil => intro g; rfl
    | cons u L ih =>
      intro g
      simp only [List.foldl_cons, hstep]
      exact ih g
  exact hfold _ g

set_option maxRecDepth 1000000 in
/-- C7 counterexample: on the 3x3x4 slab grid with `step = 1` and
`probe = 6/5`, a second application of `ses` changes voxel `(1,1,3)`:
the first application promotes the marked shell cells to `1`, and those
now act as markers next to the remaining bulk, so the second
application erodes one layer further. `ses(ses(G))` therefore differs
from `ses(G)`. -/
theorem C7_counterexample :
    (ses 3 3 4 1 (6 / 5) (ses 3 3 4 1 (6 / 5) gSlab)).rd (1, 1, 3) ≠
      (ses 3 3 4 1 (6 / 5) gSlab).rd (1, 1, 3) := by
  with_unfolding_all decide

/-- C7 amended: running C4 twice with the same probe is not idempotent
in general — a second application can convert further bulk voxels (see
the counterexample). What does hold: after any single application of
`ses` no in-grid voxel carries the scratch tag `-2` (Pass B promotes
all of them), and in the absence of marking — probe non-positive with a
positive step, so the distance test `< probe/step` never fires — a
second application leaves every cell unchanged. -/
theorem C7_amended_ses (nx ny nz : ℤ) (step probe : ℚ) (g : Grid)
    (c : Coord) :
    (c ∈ voxelList nx ny nz → (ses nx ny nz step probe g).rd c ≠ -2) ∧
    (0 < step → probe ≤ 0 →
      (ses nx ny nz step probe (ses nx ny nz step probe g)).rd c =
        (ses nx ny nz step probe g).rd c) := by
  constructor
  · intro hc
    unfold ses
    rw [sesPassB_rd]
    simp only [hc, if_true]
    unfold promoteNeg2
    by_cases h2 : (sesPassA nx ny nz step probe g).rd c = -2 <;> simp [h2]
  · intro hs hp
    have hH : ¬ 0 < probe / step := by
      have : probe / step ≤ 0 := div_nonpos_iff.mpr (Or.inr ⟨hp, le_of_lt hs⟩)
      exact not_lt.mpr this
    unfold ses
    rw [sesPassA_id hH, sesPassA_id hH]
    rw [sesPassB_rd, sesPassB_rd]
    by_cases hc : c ∈ voxelList nx ny nz
    · simp [hc, promoteNeg2_idem]
    · simp [hc]

theorem C7_amended_ses_witness :
    ((1, 1, 1) ∈ voxelList 3 3 3 →
      (ses 3 3 3 1 0 (constGrid (-2))).rd (1, 1, 1) ≠ -2) ∧
    ((0 : ℚ) < 1 → (0 : ℚ) ≤ 0 →
      (ses 3 3 3 1 0 (ses 3 3 3 1 0 (constGrid (-2)))).rd (1, 1, 1) =
        (ses 3 3 3 1 0 (constGrid (-2))).rd (1, 1, 1)) :=
  C7_amended_ses 3 3 3 1 0 (constGrid (-2)) (1, 1, 1)


/-! ### The `_interface` accumulator: sorted insertion and the filter form -/

theorem insertTail_append {p : ℤ} :
    ∀ (l : List ℤ), (∀ x ∈ l, x < p) → insertTail p l = l ++ [p] := by
  intro l
  induction l with
  | nil => intro h; rfl
  | cons r t ih =>
    intro h
    have hr : r < p := h r (List.mem_cons_self r t)
    unfold insertTail
    simp only [hr, if_true, List.cons_append, List.cons.injEq, true_and]
    exact ih (fun x hx => h x (List.mem_cons_of_mem r hx))

/-- Inserting an element larger than everything in a list appends it. -/
theorem insertRes_append (l : List ℤ) (p : ℤ) (h : ∀ x ∈ l, x < p) :
    insertRes l p = l ++ [p] := by
  cases l with
  | nil => rfl
  | cons q t =>
    have hq : q < p := h q (List.mem_cons_self q t)
    have hp : ¬ p ≤ q := by omega
    unfold insertRes
    simp only [hp, if_false, List.cons_append, List.cons.injEq, true_and]
    exact insertTail_append t (fun x hx => h x (List.mem_cons_of_mem q hx))

theorem interfaceHit_iff {nx ny nz : ℤ} {g : Grid} {t : ℚ × ℚ × ℚ} {H : ℚ}
    {c : Coord} :
    interfaceHit nx ny nz g t H c = true ↔
      strictBoundsB nx ny nz c = true ∧ g.rd c = 1 ∧
        sqrtLe (dist2 c t) H = true := by
  simp [interfaceHit, and_assoc]

theorem interfaceStep_old_eq {nx ny nz : ℤ} {g : Grid} {t : ℚ × ℚ × ℚ}
    {H : ℚ} {a : ℤ} (s : IState) (h : s.old = a) (c : Coord) :
    interfaceStep nx ny nz g t H a s c = s := by
  obtain ⟨rl, cnt, old⟩ := s
  simp only at h
  subst h
  unfold interfaceStep
  simp

theorem interfaceFold_old_fix {nx ny nz : ℤ} {g : Grid} {t : ℚ × ℚ × ℚ}
    {H : ℚ} {a : ℤ} :
    ∀ (L : List Coord) (s : IState), s.old = a →
      L.foldl (interfaceStep nx ny nz g t H a) s = s := by
  intro L
  induction L with
  | nil => intro s _; rfl
  | cons c L ih =>
    intro s h
    simp only [List.foldl_cons, interfaceStep_old_eq s h c]
    exact ih s h

/-- The cube scan of `_interface` for one atom: it inserts the atom
exactly once when some voxel of the scanned list qualifies, and leaves
the accumulator alone otherwise. -/
theorem interfaceScan_eq {nx ny nz : ℤ} {g : Grid} {t : ℚ × ℚ × ℚ}
    {H : ℚ} {a : ℤ} :
    ∀ (L : List Coord) (s : IState), s.old ≠ a →
      L.foldl (interfaceStep nx ny nz g t H a) s =
        if L.any (interfaceHit nx ny nz g t H) then
          ⟨insertRes s.reslist a, s.count + 1, a⟩
        else s := by
  intro L
  induction L with
  | nil => intro s _; simp
  | cons c L ih =>
    intro s hold
    simp only [List.foldl_cons, List.any_cons]
    by_cases hhit : interfaceHit nx ny nz g t H c = true
    · have hcond : strictBoundsB nx ny nz c = true ∧ g.rd c = 1 ∧
          sqrtLe (dist2 c t) H = true := interfaceHit_iff.mp hhit
      have hstep : interfaceStep nx ny nz g t H a s c =
          ⟨insertRes s.reslist a, s.count + 1, a⟩ := by
        unfold interfaceStep
        simp [hcond, hold]
      rw [hstep,
        interfaceFold_old_fix L ⟨insertRes s.reslist a, s.count + 1, a⟩ rfl]
      simp [hhit]
    · have hstep : interfaceStep nx ny nz g t H a s c = s := by
        unfold interfaceStep
        rw [interfaceHit_iff] at hhit
        simp [hhit]
      have hhf : interfaceHit nx ny nz g t H c = false := by
        simpa using hhit
      simp only [hstep, hhf, Bool.false_or]
      exact ih s hold

/-- The `_interface` atom loop builds exactly the ascending filter of
the touching atoms: processing a strictly increasing list of atom
indices, all larger than `old` and than everything inserted so far,
appends the touching ones in order. -/
theorem interfaceFold_filter_aux {nx ny nz : ℤ} {g : Grid}
    {atoms : ℤ → ℚ} {rx ry rz sa ca sb cb step probe : ℚ} :
    ∀ (L : List ℤ) (s : IState), List.Pairwise (· < ·) L →
      (∀ y ∈ L, s.old < y) →
      (∀ x ∈ s.reslist, ∀ y ∈ L, x < y) →
      ((L.foldl
          (interfaceAtom nx ny nz g atoms rx ry rz sa ca sb cb step probe)
          s)).reslist =
        s.reslist ++
          L.filter (atomTouches nx ny nz g atoms rx ry rz sa ca sb cb step
            probe) ∧
      ((L.foldl
          (interfaceAtom nx ny nz g atoms rx ry rz sa ca sb cb step probe)
          s)).count =
        s.count +
          ((L.filter (atomTouches nx ny nz g atoms rx ry rz sa ca sb cb step
            probe)).length : ℤ) := by
  intro L
  induction L with
  | nil =>
    intro s _ _ _
    simp
  | cons a L ih =>
    intro s hpw hold hres
    have holda : s.old ≠ a := by
      have := hold a (List.mem_cons_self a L)
      omega
    have hstep : interfaceAtom nx ny nz g atoms rx ry rz sa ca sb cb step
        probe s a =
        if atomTouches nx ny nz g atoms rx ry rz sa ca sb cb step probe a
        then ⟨insertRes s.reslist a, s.count + 1, a⟩ else s := by
      unfold interfaceAtom atomTouches touchesCubeB
      exact interfaceScan_eq _ s holda
    have hpwL : List.Pairwise (· < ·) L := hpw.of_cons
    have haL : ∀ y ∈ L, a < y := by
      intro y hy
      exact (List.pairwise_cons.mp hpw).1 y hy
    simp only [List.foldl_cons, hstep]
    by_cases ht : atomTouches nx ny nz g atoms rx ry rz sa ca sb cb step
        probe a = true
    · simp only [ht, if_true]
      have hins : insertRes s.reslist a = s.reslist ++ [a] :=
        insertRes_append _ _ (fun x hx =>
          hres x hx a (List.mem_cons_self a L))
      have hih := ih ⟨insertRes s.reslist a, s.count + 1, a⟩ hpwL haL ?_
      · rcases hih with ⟨h1, h2⟩
        constructor
        · rw [h1]
          simp only [hins, List.filter_cons, ht, if_true,
            List.append_assoc, List.singleton_append]
        · rw [h2]
          simp only [List.filter_cons, ht, if_true, List.length_cons]
          push_cast
          ring
      · intro x hx y hy
        simp only [hins] at hx
        rcases List.mem_append.mp hx with h | h
        · exact hres x h y (List.mem_cons_of_mem a hy)
        · rw [List.mem_singleton.mp h]
          exact haL y hy
    · have htf : atomTouches nx ny nz g atoms rx ry rz sa ca sb cb step
          probe a = false := by
        simpa using ht
      simp only [htf, Bool.false_eq_true, if_false]
      have hih := ih s hpwL (fun y hy => hold y (List.mem_cons_of_mem a hy))
        (fun x hx y hy => hres x hx y (List.mem_cons_of_mem a hy))
      rcases hih with ⟨h1, h2⟩
      constructor
      · rw [h1]
        simp [List.filter_cons, htf]
      · rw [h2]
        simp [List.filter_cons, htf]

theorem rangeZ_pairwise (n : ℤ) : List.Pairwise (· < ·) (rangeZ n) := by
  unfold rangeZ
  refine List.Pairwise.map _ ?_ (List.pairwise_lt_range n.toNat)
  intro a b h
  exact_mod_cast h

/-- The sequence of atom indices accumulated by `_interface` is exactly
the ascending filter of the touching atoms. -/
theorem interfaceResList_eq_filter (nx ny nz : ℤ) (g : Grid)
    (atoms : ℤ → ℚ) (natoms : ℤ) (rx ry rz sa ca sb cb step probe : ℚ) :
    interfaceResList nx ny nz g atoms natoms rx ry rz sa ca sb cb step
        probe =
      (rangeZ natoms).filter
        (atomTouches nx ny nz g atoms rx ry rz sa ca sb cb step probe) := by
  unfold interfaceResList interfaceFold
  have h := @interfaceFold_filter_aux nx ny nz g atoms rx ry rz sa ca sb cb
    step probe (rangeZ natoms) ⟨[], 0, -1⟩ (rangeZ_pairwise natoms) ?_ ?_
  · rw [h.1]
    simp
  · intro y hy
    have := mem_rangeZ.mp hy
    simp only
    omega
  · intro x hx
    exact absurd hx (List.not_mem_nil x)


theorem mem_atomCube {t : ℚ × ℚ × ℚ} {H : ℚ} {c : Coord} :
    c ∈ atomCube t H ↔
      ⌊t.1 - H⌋ ≤ c.1 ∧ c.1 ≤ ⌈t.1 + H⌉ ∧ ⌊t.2.1 - H⌋ ≤ c.2.1 ∧
        c.2.1 ≤ ⌈t.2.1 + H⌉ ∧ ⌊t.2.2 - H⌋ ≤ c.2.2 ∧ c.2.2 ≤ ⌈t.2.2 + H⌉ := by
  obtain ⟨i, j, k⟩ := c
  unfold atomCube
  simp only [List.mem_flatMap, List.mem_map, mem_rangeZI, Prod.mk.injEq]
  constructor
  · rintro ⟨a, ha, b, hb, e, he, rfl, rfl, rfl⟩
    exact ⟨ha.1, ha.2, hb.1, hb.2, he.1, he.2⟩
  · rintro ⟨h1, h2, h3, h4, h5, h6⟩
    exact ⟨i, ⟨h1, h2⟩, j, ⟨h3, h4⟩, k, ⟨h5, h6⟩, rfl, rfl, rfl⟩

/-- The per-atom scan cube misses no qualifying voxel: a voxel at
distance `≤ H` from the transformed center has every index between
`floor(x - H)` and `ceil(x + H)`, so scanning the cube is the same as
scanning the whole grid under the hit criterion. -/
theorem touchesCube_iff_grid (nx ny nz : ℤ) (g : Grid) (t : ℚ × ℚ × ℚ)
    (H : ℚ) :
    touchesCubeB nx ny nz g t H = true ↔
      touchesGridB nx ny nz g t H = true := by
  unfold touchesCubeB touchesGridB
  simp only [List.any_eq_true]
  constructor
  · rintro ⟨c, _, hhit⟩
    refine ⟨c, ?_, hhit⟩
    have hsb := (interfaceHit_iff.mp hhit).1
    rw [mem_voxelList]
    simp only [strictBoundsB, Bool.and_eq_true, decide_eq_true_eq] at hsb
    omega
  · rintro ⟨c, _, hhit⟩
    refine ⟨c, ?_, hhit⟩
    obtain ⟨hsb, h1, hle⟩ := interfaceHit_iff.mp hhit
    simp only [sqrtLe, Bool.and_eq_true, decide_eq_true_eq] at hle
    obtain ⟨hH0, hd2⟩ := hle
    obtain ⟨i, j, k⟩ := c
    simp only [dist2] at hd2
    rw [mem_atomCube]
    have hxl : t.1 - H ≤ (i : ℚ) := by
      nlinarith [sq_nonneg ((j : ℚ) - t.2.1), sq_nonneg ((k : ℚ) - t.2.2),
        sq_nonneg ((i : ℚ) - t.1 + H), sq_nonneg ((i : ℚ) - t.1 - H)]
    have hxr : (i : ℚ) ≤ t.1 + H := by
      nlinarith [sq_nonneg ((j : ℚ) - t.2.1), sq_nonneg ((k : ℚ) - t.2.2),
        sq_nonneg ((i : ℚ) - t.1 + H), sq_nonneg ((i : ℚ) - t.1 - H)]
    have hyl : t.2.1 - H ≤ (j : ℚ) := by
      nlinarith [sq_nonneg ((i : ℚ) - t.1), sq_nonneg ((k : ℚ) - t.2.2),
        sq_nonneg ((j : ℚ) - t.2.1 + H), sq_nonneg ((j : ℚ) - t.2.1 - H)]
    have hyr : (j : ℚ) ≤ t.2.1 + H := by
      nlinarith [sq_nonneg ((i : ℚ) - t.1), sq_nonneg ((k : ℚ) - t.2.2),
        sq_nonneg ((j : ℚ) - t.2.1 + H), sq_nonneg ((j : ℚ) - t.2.1 - H)]
    have hzl : t.2.2 - H ≤ (k : ℚ) := by
      nlinarith [sq_nonneg ((i : ℚ) - t.1), sq_nonneg ((j : ℚ) - t.2.1),
        sq_nonneg ((k : ℚ) - t.2.2 + H), sq_nonneg ((k : ℚ) - t.2.2 - H)]
    have hzr : (k : ℚ) ≤ t.2.2 + H := by
      nlinarith [sq_nonneg ((i : ℚ) - t.1), sq_nonneg ((j : ℚ) - t.2.1),
        sq_nonneg ((k : ℚ) - t.2.2 + H), sq_nonneg ((k : ℚ) - t.2.2 - H)]
    refine ⟨?_, ?_, ?_, ?_, ?_, ?_⟩
    · exact le_of_le_of_eq (Int.floor_le_floor hxl) (Int.floor_intCast i)
    · exact le_of_eq_of_le (Int.ceil_intCast i).symm (Int.ceil_le_ceil hxr)
    · exact le_of_le_of_eq (Int.floor_le_floor hyl) (Int.floor_intCast j)
    · exact le_of_eq_of_le (Int.ceil_intCast j).symm (Int.ceil_le_ceil hyr)
    · exact le_of_le_of_eq (Int.floor_le_floor hzl) (Int.floor_intCast k)
    · exact le_of_eq_of_le (Int.ceil_intCast k).symm (Int.ceil_le_ceil hzr)

set_option maxRecDepth 1000000 in
/-- C4 counterexample: grid 2x2x2 with a kept-surface voxel only at
`(0,0,0)`, one atom at the origin with radius `1`, identity
orientation, `step = 1`, `probe = 0`. Voxel `(0,0,0)` lies within the
grid bounds (indices equal to `0`), has tag `1`, and is at distance
`0 ≤ H = 1` from the transformed center, so the claim's criterion
includes atom `0` — but `_interface` requires `i > 0 && j > 0 && k > 0`
(line 710), so its residue list is empty: the claimed equivalence is
false at this input. -/
theorem C4_counterexample :
    ¬ ((0 ∈ interfaceResList 2 2 2 gCorner0 atomsOrigin 1 0 0 0 0 1 0 1 1 0) ↔
      touchesSpecZeroB 2 2 2 gCorner0 (atomT atomsOrigin 0 0 0 0 1 0 1 1 0)
        (atomH atomsOrigin 1 0 0) = true) := by
  with_unfolding_all decide

/-- C4 amended: `_interface` includes atom `a` in its output exactly
when some voxel with all indices strictly positive and within the grid
(`(0, nx) x (0, ny) x (0, nz)`; index `0` on any axis is excluded) has
tag `1` and lies at Euclidean distance `≤ H = (radius + probe)/step`
(non-strict) from the atom's transformed center. -/
theorem C4_amended_touch (nx ny nz : ℤ) (g : Grid) (atoms : ℤ → ℚ)
    (natoms : ℤ) (rx ry rz sa ca sb cb step probe : ℚ) (a : ℤ)
    (h0 : 0 ≤ a) (h1 : a < natoms) :
    a ∈ interfaceResList nx ny nz g atoms natoms rx ry rz sa ca sb cb step
        probe ↔
      touchesGridB nx ny nz g (atomT atoms rx ry rz sa ca sb cb step a)
        (atomH atoms step probe a) = true := by
  rw [interfaceResList_eq_filter, List.mem_filter]
  constructor
  · rintro ⟨_, htouch⟩
    exact (touchesCube_iff_grid nx ny nz g _ _).mp htouch
  · intro htouch
    refine ⟨mem_rangeZ.mpr ⟨h0, h1⟩, ?_⟩
    exact (touchesCube_iff_grid nx ny nz g _ _).mpr htouch

set_option maxRecDepth 1000000 in
theorem C4_amended_touch_witness :
    0 ∈ interfaceResList 3 3 3 gMid3 atomsUnit 1 0 0 0 0 1 0 1 1 0 ↔
      touchesGridB 3 3 3 gMid3 (atomT atomsUnit 0 0 0 0 1 0 1 1 0)
        (atomH atomsUnit 1 0 0) = true :=
  C4_amended_touch 3 3 3 gMid3 atomsUnit 1 0 0 0 0 1 0 1 1 0 0
    (by decide) (by decide)

/-- C5: the sequence of atom indices underlying the residue array
returned by `_interface` is exactly the ascending filter of the
touching atoms over `0, ..., natoms-1` — each touching atom contributes
exactly one entry — and it is strictly increasing. -/
theorem C5_residue_sorted (nx ny nz : ℤ) (g : Grid) (atoms : ℤ → ℚ)
    (natoms : ℤ) (rx ry rz sa ca sb cb step probe : ℚ) :
    interfaceResList nx ny nz g atoms natoms rx ry rz sa ca sb cb step
        probe =
      (rangeZ natoms).filter
        (atomTouches nx ny nz g atoms rx ry rz sa ca sb cb step probe) ∧
    List.Pairwise (· < ·)
      (interfaceResList nx ny nz g atoms natoms rx ry rz sa ca sb cb step
        probe) := by
  have he := interfaceResList_eq_filter nx ny nz g atoms natoms rx ry rz sa
    ca sb cb step probe
  refine ⟨he, ?_⟩
  rw [he]
  exact List.Pairwise.sublist (List.filter_sublist _) (rangeZ_pairwise natoms)

/-- C10: the array returned by `_interface` has exactly one slot more
than the number of touching atoms, its final slot is `NULL`, and when
no atom touches the surface its first element is `NULL`. -/
theorem C10_null_terminated (nx ny nz : ℤ) (g : Grid) (pdb : ℤ → String)
    (atoms : ℤ → ℚ) (natoms : ℤ) (rx ry rz sa ca sb cb step probe : ℚ) :
    (_interface nx ny nz g pdb atoms natoms rx ry rz sa ca sb cb step
        probe).length =
      ((rangeZ natoms).filter
        (atomTouches nx ny nz g atoms rx ry rz sa ca sb cb step
          probe)).length + 1 ∧
    (_interface nx ny nz g pdb atoms natoms rx ry rz sa ca sb cb step
        probe).getLast? = some none ∧
    ((rangeZ natoms).filter
        (atomTouches nx ny nz g atoms rx ry rz sa ca sb cb step probe) =
          [] →
      (_interface nx ny nz g pdb atoms natoms rx ry rz sa ca sb cb step
        probe).head? = some none) := by
  unfold _interface
  rw [interfaceResList_eq_filter]
  refine ⟨?_, ?_, ?_⟩
  · simp
  · exact List.getLast?_concat _
  · intro h
    rw [h]
    simp

theorem C10_null_terminated_witness :
    (_interface 2 2 2 gCorner0 (fun _ => "A1") atomsOrigin 0 0 0 0 0 1 0 1 1
        0).length =
      ((rangeZ 0).filter
        (atomTouches 2 2 2 gCorner0 atomsOrigin 0 0 0 0 1 0 1 1 0)).length
        + 1 ∧
    (_interface 2 2 2 gCorner0 (fun _ => "A1") atomsOrigin 0 0 0 0 0 1 0 1 1
        0).getLast? = some none ∧
    (_interface 2 2 2 gCorner0 (fun _ => "A1") atomsOrigin 0 0 0 0 0 1 0 1 1
        0).head? = some none :=
  ⟨(C10_null_terminated 2 2 2 gCorner0 (fun _ => "A1") atomsOrigin 0 0 0 0 0
      1 0 1 1 0).1,
    (C10_null_terminated 2 2 2 gCorner0 (fun _ => "A1") atomsOrigin 0 0 0 0 0
      1 0 1 1 0).2.1,
    (C10_null_terminated 2 2 2 gCorner0 (fun _ => "A1") atomsOrigin 0 0 0 0 0
      1 0 1 1 0).2.2 (by decide)⟩


/-! ### Pipeline lemmas: degenerate shapes and the empty atom array -/

theorem rd_constGrid (b : ℤ) (c : Coord) : (constGrid b).rd c = b := rfl

theorem foldl_id {α β : Type _} (f : β → α → β) (h : ∀ b a, f b a = b) :
    ∀ (l : List α) (b : β), l.foldl f b = b := by
  intro l
  induction l with
  | nil => intro b; rfl
  | cons a l ih =>
    intro b
    simp only [List.foldl_cons, h]
    exact ih b

theorem foldl_fix_mem {α β : Type _} (f : β → α → β) (b : β) :
    ∀ (l : List α), (∀ a ∈ l, f b a = b) → l.foldl f b = b := by
  intro l
  induction l with
  | nil => intro _; rfl
  | cons a l ih =>
    intro h
    simp only [List.foldl_cons, h a (List.mem_cons_self a l)]
    exact ih (fun x hx => h x (List.mem_cons_of_mem a hx))

theorem rangeZ_nil {n : ℤ} (h : n ≤ 0) : rangeZ n = [] := by
  unfold rangeZ
  have : n.toNat = 0 := by omega
  rw [this]
  rfl

theorem flatMap_nil_fun {α β : Type _} :
    ∀ (l : List α), (l.flatMap (fun _ => ([] : List β))) = [] := by
  intro l
  induction l with
  | nil => rfl
  | cons a l ih => simp [List.flatMap_cons, ih]

theorem voxelList_nil {nx ny nz : ℤ}
    (h : nx ≤ 0 ∨ ny ≤ 0 ∨ nz ≤ 0) : voxelList nx ny nz = [] := by
  unfold voxelList
  rcases h with h | h | h
  · rw [rangeZ_nil h]
    rfl
  · rw [rangeZ_nil h]
    simp only [List.flatMap_nil]
    exact flatMap_nil_fun _
  · rw [rangeZ_nil h]
    simp only [List.map_nil]
    rw [show (fun i => (rangeZ ny).flatMap fun j => ([] : List Coord)) =
      (fun i => ([] : List Coord)) from funext fun i => flatMap_nil_fun _]
    exact flatMap_nil_fun _

theorem inBoundsB_false_of_deg {nx ny nz : ℤ}
    (h : nx ≤ 0 ∨ ny ≤ 0 ∨ nz ≤ 0) (c : Coord) :
    inBoundsB nx ny nz c = false := by
  unfold inBoundsB
  rcases h with h | h | h <;>
    simp only [Bool.and_eq_false_iff, decide_eq_false_iff_not, not_lt,
      not_le] <;> omega

theorem fill_of_deg {nx ny nz : ℤ}
    (hib : ∀ d, inBoundsB nx ny nz d = false) (atoms : ℤ → ℚ) (natoms : ℤ)
    (rx ry rz sa ca sb cb step probe : ℚ) (g : Grid) :
    fill nx ny nz atoms natoms rx ry rz sa ca sb cb step probe g = g := by
  unfold fill
  refine foldl_id _ ?_ _ _
  intro g a
  refine foldl_id _ ?_ _ _
  intro g2 c
  simp [hib c]

theorem fill_of_empty {nx ny nz : ℤ} {natoms : ℤ} (h : natoms ≤ 0)
    (atoms : ℤ → ℚ) (rx ry rz sa ca sb cb step probe : ℚ) (g : Grid) :
    fill nx ny nz atoms natoms rx ry rz sa ca sb cb step probe g = g := by
  unfold fill
  rw [rangeZ_nil h]
  rfl

theorem ses_of_nil {nx ny nz : ℤ} (h : voxelList nx ny nz = [])
    (step probe : ℚ) (g : Grid) : ses nx ny nz step probe g = g := by
  unfold ses sesPassA sesPassB
  rw [h]
  rfl

theorem filter_surface_of_nil {nx ny nz : ℤ} (h : voxelList nx ny nz = [])
    (g : Grid) : filter_surface nx ny nz g = g := by
  unfold filter_surface
  rw [h]
  rfl

theorem fer_of_nil {nx ny nz : ℤ} (h : voxelList nx ny nz = [])
    (ffuel wfuel : Nat) (g : Grid) :
    filter_enclosed_regions nx ny nz ffuel wfuel g = g := by
  unfold filter_enclosed_regions ferCluster
  rw [h]
  simp

theorem filter_noise_of_nil {nx ny nz : ℤ} (h : voxelList nx ny nz = [])
    (g : Grid) : filter_noise_points nx ny nz g = g := by
  unfold filter_noise_points
  rw [h]
  rfl

/-! ### The pipeline on the all-`1` grid (empty atom array) -/

theorem check_protein_constOne (nx ny nz : ℤ) (c : Coord) :
    check_protein_neighbours nx ny nz (constGrid 1) c = false := by
  unfold check_protein_neighbours
  rw [List.any_eq_false]
  intro d _
  simp [rd_constGrid]

theorem ses_constOne (nx ny nz : ℤ) (step probe : ℚ) :
    ses nx ny nz step probe (constGrid 1) = constGrid 1 := by
  unfold ses sesPassA sesPassB
  rw [foldl_fix_mem _ (constGrid 1) _ ?_]
  · refine foldl_fix_mem _ _ _ ?_
    intro c _
    simp [rd_constGrid]
  · intro c _
    unfold sesStep
    simp [check_protein_constOne]

theorem define_surface_points_of_no_zero {nx ny nz : ℤ} {g : Grid}
    (hq : ∀ d, g.rd d ≠ 0) (c : Coord) :
    define_surface_points nx ny nz g c = -1 := by
  unfold define_surface_points
  have : ((neighborCells c).any fun d =>
      inBoundsB nx ny nz d && g.rd d = 0) = false := by
    rw [List.any_eq_false]
    intro d _
    simp [hq d]
  simp [this]

theorem fsStep_no_zero {nx ny nz : ℤ} {g : Grid} (hq : ∀ d, g.rd d ≠ 0)
    (v d : Coord) :
    (if g.rd v = 1 then
        upd g v (define_surface_points nx ny nz g v) else g).rd d ≠ 0 := by
  by_cases h1 : g.rd v = 1
  · simp only [h1, if_true, rd_upd]
    by_cases hd : d = v
    · simp only [hd, if_true]
      unfold define_surface_points
      by_cases h2 : ((neighborCells v).any fun e =>
          inBoundsB nx ny nz e && g.rd e = 0) = true <;> simp [h2]
    · simp [hd, hq d]
  · simp [h1, hq d]

theorem fs_rd_keep_neg_one {nx ny nz : ℤ} :
    ∀ (L : List Coord) (g : Grid) (c : Coord), g.rd c = -1 →
      ((L.foldl (fun g c => if g.rd c = 1 then
        upd g c (define_surface_points nx ny nz g c) else g) g)).rd c
        = -1 := by
  intro L
  induction L with
  | nil => intro g c h; exact h
  | cons v L ih =>
    intro g c h
    simp only [List.foldl_cons]
    refine ih _ c ?_
    by_cases h1 : g.rd v = 1
    · simp only [h1, if_true, rd_upd]
      by_cases hd : c = v
      · rw [hd] at h
        rw [h] at h1
        exact absurd h1 (by norm_num)
      · simp [hd, h]
    · simp [h1, h]

/-- In a grid with no `0` cell, `filter_surface` turns every visited
cell holding `1` into `-1`. -/
theorem fs_makes_neg_one {nx ny nz : ℤ} :
    ∀ (L : List Coord) (g : Grid) (c : Coord), (∀ d, g.rd d ≠ 0) →
      c ∈ L → g.rd c = 1 →
      ((L.foldl (fun g c => if g.rd c = 1 then
        upd g c (define_surface_points nx ny nz g c) else g) g)).rd c
        = -1 := by
  intro L
  induction L with
  | nil =>
    intro g c _ hmem
    exact absurd hmem (List.not_mem_nil c)
  | cons v L ih =>
    intro g c hq hmem h1
    simp only [List.foldl_cons]
    by_cases hv : v = c
    · subst hv
      have hstep : (if g.rd v = 1 then
          upd g v (define_surface_points nx ny nz g v) else g).rd v = -1 := by
        simp only [h1, if_true, rd_upd, if_pos rfl]
        exact define_surface_points_of_no_zero hq v
      exact fs_rd_keep_neg_one L _ v hstep
    · have hmem2 : c ∈ L := by
        rcases List.mem_cons.mp hmem with h | h
        · exact absurd h.symm hv
        · exact h
      refine ih _ c (fsStep_no_zero hq v) hmem2 ?_
      by_cases hv1 : g.rd v = 1
      · simp only [hv1, if_true, rd_upd]
        have : ¬ c = v := fun h => hv h.symm
        simp [this, h1]
      · simp [hv1, h1]

theorem filter_surface_constOne {nx ny nz : ℤ} (c : Coord)
    (hc : c ∈ voxelList nx ny nz) :
    (filter_surface nx ny nz (constGrid 1)).rd c = -1 := by
  unfold filter_surface
  exact fs_makes_neg_one _ _ c (fun d => by simp [rd_constGrid]) hc
    (rd_constGrid 1 c)

theorem fer_of_no_one {nx ny nz : ℤ} {ffuel wfuel : Nat} {g : Grid}
    (h : ∀ v ∈ voxelList nx ny nz, g.rd v ≠ 1) :
    filter_enclosed_regions nx ny nz ffuel wfuel g = g := by
  unfold filter_enclosed_regions ferCluster
  rw [foldl_fix_mem _ (⟨g, 1, 0, false⟩ : CState) _ ?_]
  · simp
  · intro v hv
    unfold ferScanStep
    simp [h v hv]

theorem filter_noise_of_no_one {nx ny nz : ℤ} {g : Grid}
    (h : ∀ v ∈ voxelList nx ny nz, g.rd v ≠ 1) :
    filter_noise_points nx ny nz g = g := by
  unfold filter_noise_points
  refine foldl_fix_mem _ _ _ ?_
  intro v hv
  simp [h v hv]


/-- C8: an empty atom array is not an error: the surface operation
completes, every in-grid voxel of the final grid carries `-1` (the
code's "solvent point" tag, the value `define_surface_points` returns
when no bulk neighbour exists — with no atoms the whole grid is solvent
and no voxel is bulk), and `_interface` returns the empty residue list
(the one-slot array holding only the terminating `NULL`). -/
theorem C8_empty_atom_array (nx ny nz : ℤ) (atoms : ℤ → ℚ)
    (rx ry rz sa ca sb cb step probe : ℚ) (is_ses : Bool) (nthreads : ℤ)
    (ffuel wfuel : Nat) (gI : Grid) (pdb : ℤ → String) (c : Coord)
    (hc : c ∈ voxelList nx ny nz) :
    (_surface nx ny nz atoms 0 rx ry rz sa ca sb cb step probe is_ses
      nthreads ffuel wfuel).rd c = -1 ∧
    _interface nx ny nz gI pdb atoms 0 rx ry rz sa ca sb cb step probe =
      [none] := by
  have h1 : ∀ v ∈ voxelList nx ny nz,
      (filter_surface nx ny nz (constGrid 1)).rd v ≠ 1 := by
    intro v hv
    rw [filter_surface_constOne v hv]
    norm_num
  constructor
  · have hfull : _surface nx ny nz atoms 0 rx ry rz sa ca sb cb step probe
        is_ses nthreads ffuel wfuel =
        filter_surface nx ny nz (constGrid 1) := by
      simp only [_surface]
      rw [fill_of_empty le_rfl]
      have e2 : (if is_ses then ses nx ny nz step probe igrid else igrid) =
          igrid := by
        cases is_ses <;> simp [igrid, ses_constOne]
      rw [e2]
      show filter_noise_points nx ny nz (filter_enclosed_regions nx ny nz
        ffuel wfuel (filter_surface nx ny nz (constGrid 1))) = _
      rw [fer_of_no_one h1, filter_noise_of_no_one h1]
    rw [hfull]
    exact filter_surface_constOne c hc
  · simp only [_interface, interfaceResList, interfaceFold,
      rangeZ_nil (le_refl (0 : ℤ))]
    rfl

theorem C8_empty_atom_array_witness :
    (0, 0, 0) ∈ voxelList 2 2 2 ∧
    ((_surface 2 2 2 atomsOrigin 0 0 0 0 0 1 0 1 1 0 true 1 5 5).rd
        (0, 0, 0) = -1 ∧
      _interface 2 2 2 gCorner0 (fun _ => "A1") atomsOrigin 0 0 0 0 0 1 0 1
        1 0 = [none]) :=
  ⟨by decide, C8_empty_atom_array 2 2 2 atomsOrigin 0 0 0 0 1 0 1 1 0 true 1
    5 5 gCorner0 (fun _ => "A1") (0, 0, 0) (by decide)⟩

set_option maxRecDepth 1000000 in
/-- C9 counterexample: with `nx = 0` (a degenerate input), the
validation the specification requires — modelled by `surfaceChecked` —
surfaces a fatal error, but the code's `_surface` performs no check at
all: it completes normally and leaves every cell at the initialization
value `1`, as witnessed at cell `(1,1,1)`. No error is surfaced to the
caller anywhere in `_surface`. -/
theorem C9_counterexample :
    surfaceChecked 0 3 3 atomsOrigin 1 0 0 0 0 1 0 1 1 0 false 1 5 5 =
      Except.error "degenerate input" ∧
    (_surface 0 3 3 atomsOrigin 1 0 0 0 0 1 0 1 1 0 false 1 5 5).rd
      (1, 1, 1) = 1 := by
  constructor
  · simp [surfaceChecked]
  · with_unfolding_all decide

/-- C9 amended: the surface operation performs no validation and
surfaces no error. When `nx`, `ny`, or `nz` is non-positive every
processing loop is empty and the operation completes with every cell
still holding the initialization tag `1`; a negative `natoms` behaves
exactly as `natoms = 0` (the atom loop is empty in both cases). -/
theorem C9_amended_no_validation (nx ny nz : ℤ) (atoms : ℤ → ℚ)
    (natoms : ℤ) (rx ry rz sa ca sb cb step probe : ℚ) (is_ses : Bool)
    (nthreads : ℤ) (ffuel wfuel : Nat) (c : Coord) :
    (nx ≤ 0 ∨ ny ≤ 0 ∨ nz ≤ 0 →
      (_surface nx ny nz atoms natoms rx ry rz sa ca sb cb step probe
        is_ses nthreads ffuel wfuel).rd c = 1) ∧
    (natoms ≤ 0 →
      (_surface nx ny nz atoms natoms rx ry rz sa ca sb cb step probe
          is_ses nthreads ffuel wfuel).rd c =
        (_surface nx ny nz atoms 0 rx ry rz sa ca sb cb step probe is_ses
          nthreads ffuel wfuel).rd c) := by
  constructor
  · intro hdeg
    have hvl := voxelList_nil hdeg
    have hfull : _surface nx ny nz atoms natoms rx ry rz sa ca sb cb step
        probe is_ses nthreads ffuel wfuel = igrid := by
      simp only [_surface]
      rw [fill_of_deg (inBoundsB_false_of_deg hdeg)]
      have e2 : (if is_ses then ses nx ny nz step probe igrid else igrid) =
          igrid := by
        cases is_ses <;> simp [ses_of_nil hvl]
      rw [e2, filter_surface_of_nil hvl, fer_of_nil hvl,
        filter_noise_of_nil hvl]
    rw [hfull]
    rfl
  · intro hna
    have : _surface nx ny nz atoms natoms rx ry rz sa ca sb cb step probe
        is_ses nthreads ffuel wfuel =
        _surface nx ny nz atoms 0 rx ry rz sa ca sb cb step probe is_ses
          nthreads ffuel wfuel := by
      simp only [_surface]
      rw [fill_of_empty hna, fill_of_empty le_rfl]
    rw [this]

theorem C9_amended_no_validation_witness :
    (_surface 0 3 3 atomsOrigin (-5) 0 0 0 0 1 0 1 1 0 false 1 5 5).rd
      (1, 1, 1) = 1 ∧
    (_surface 0 3 3 atomsOrigin (-5) 0 0 0 0 1 0 1 1 0 false 1 5 5).rd
        (1, 1, 1) =
      (_surface 0 3 3 atomsOrigin 0 0 0 0 0 1 0 1 1 0 false 1 5 5).rd
        (1, 1, 1) :=
  ⟨(C9_amended_no_validation 0 3 3 atomsOrigin (-5) 0 0 0 0 1 0 1 1 0 false
      1 5 5 (1, 1, 1)).1 (by decide),
    (C9_amended_no_validation 0 3 3 atomsOrigin (-5) 0 0 0 0 1 0 1 1 0 false
      1 5 5 (1, 1, 1)).2 (by decide)⟩

end SERD
